import Mathlib

/-!
# TWAP oracle: time-windowed aggregation engine

A shallow embedding of `src/src/TWAPOracle.js` (class `TWAPOracle`) and of the
`/api/twap/:timeperiodId` handler of `src/src/index.js`.

Modelling conventions.

* JavaScript numbers are IEEE 754 doubles. Every number the engine handles is
  integer-valued, so numbers are modelled as `Int` and the rounding of the double
  operations is modelled explicitly:
  - timestamps, interval ids and interval widths are counts of seconds
    (`Math.floor (Date.now () / 1000)` is below `2^43`), far inside the range `2^53` in
    which doubles are exact on integers; sums, differences and grid cells of them are
    exact integer arithmetic, with `Math.floor (a / b)` as `Int.fdiv a b`;
  - prices are arbitrary integer-valued doubles; every operation of `calculateTWAP`
    that involves a price (`price * timeDiff`, `weightedSum += ...`, `acc + s.price`,
    `weightedSum / totalWeight`, `sum / length`) is rounded to the nearest double, ties
    to even (`toDouble`, `mathFloorDiv`). The exponent range of doubles (overflow to
    `Infinity` beyond `2^1024`) is not modelled.
* A zero interval width makes the source compute `NaN` bounds for a new bucket, which
  the integer model does not represent; every statement below that depends on the
  bounds of a bucket created by `addPriceSnapshot` takes a positive width.
* A JavaScript `Map` is an insertion-ordered association list with `mapGet`,
  `mapHas`, `mapSet` and `mapDelete`; its keys are pairwise distinct.
* `null` / `undefined` results are `none`.
* `Date.now ()` is an explicit argument.
* Logging is omitted.
-/

namespace TWAPOracle

/-! ## JavaScript `Map` -/

/-- Lookup `Map.prototype.get`: the value stored under `k`, if any. -/
def mapGet {V : Type} : List (Int × V) → Int → Option V
  | [], _ => none
  | (k', v) :: rest, k => if k' = k then some v else mapGet rest k

/-- Membership test `Map.prototype.has`. -/
def mapHas {V : Type} (m : List (Int × V)) (k : Int) : Bool :=
  (mapGet m k).isSome

/-- Update `Map.prototype.set`: overwrite in place when the key exists, append otherwise. -/
def mapSet {V : Type} : List (Int × V) → Int → V → List (Int × V)
  | [], k, v => [(k, v)]
  | (k', v') :: rest, k, v =>
    if k' = k then (k, v) :: rest else (k', v') :: mapSet rest k v

/-- Removal `Map.prototype.delete`. -/
def mapDelete {V : Type} (m : List (Int × V)) (k : Int) : List (Int × V) :=
  m.filter (fun e => decide (e.1 ≠ k))

/-- Keys of a map, in insertion order. -/
def mapKeys {V : Type} (m : List (Int × V)) : List Int :=
  m.map Prod.fst

/-! ## Data model -/

/-- One recorded sample `{ price, timestamp }`. -/
structure Snapshot where
  price : Int
  timestamp : Int
  deriving DecidableEq, Repr

/-- One entry of `priceHistory`: `{ snapshots, startTime, endTime }`. -/
structure History where
  snapshots : List Snapshot
  startTime : Int
  endTime : Int
  deriving DecidableEq, Repr

/-- The aggregation state of a `TWAPOracle` instance. -/
structure Oracle where
  priceHistory : List (Int × History)
  finalizedPrices : List (Int × Int)
  deriving DecidableEq, Repr

/-- State built by the constructor: both maps empty. -/
def Oracle.empty : Oracle :=
  { priceHistory := [], finalizedPrices := [] }

/-! ## Double-precision arithmetic on integers -/

/-- Binary logarithm by repeated halving, with `fuel` bounding the number of steps. -/
def log2Fuel : Nat → Nat → Nat
  | 0, _ => 0
  | fuel + 1, n => if 2 ≤ n then log2Fuel fuel (n / 2) + 1 else 0

/-- Index of the leading binary digit: `floor (log2 n)` for `n > 0`. -/
def floorLog2 (n : Nat) : Nat := log2Fuel n n

/-- Quotient `num / den` rounded to the nearest natural number, ties to the even one
(`den > 0`). -/
def roundHalfEven (num den : Nat) : Nat :=
  let q := num / den
  let r := num % den
  if 2 * r < den then q
  else if den < 2 * r then q + 1
  else if q % 2 = 0 then q else q + 1

/-- The double nearest to the integer `n` (round to nearest, ties to even): integers
below `2^53` in magnitude are doubles; a larger one keeps 53 significant binary digits,
so it is rounded to a multiple of `2^(floorLog2 |n| - 52)`. -/
def toDouble (n : Int) : Int :=
  if n.natAbs < 2 ^ 53 then n
  else
    let ulp := 2 ^ (floorLog2 n.natAbs - 52)
    Int.sign n * ((roundHalfEven n.natAbs ulp * ulp : Nat) : Int)

/-- Binary scaling `(up, down)` of the quotient `a / b` of positive naturals that brings
it into the significand range: `2^52 ≤ (a * 2^up) / (b * 2^down) < 2^53`, one of `up`,
`down` being `0`. -/
def quotientScale (a b : Nat) : Nat × Nat :=
  let la := floorLog2 a
  let lb := floorLog2 b
  if la ≤ 52 + lb then
    let up := 52 + lb - la
    if b * 2 ^ 52 ≤ a * 2 ^ up then (up, 0) else (up + 1, 0)
  else
    let down := la - lb - 52
    if b * 2 ^ (down + 52) ≤ a then (0, down) else (0, down - 1)

/-- Expression `Math.floor (a / b)` for integer-valued doubles `a` and `b > 0` (the
only divisors `calculateTWAP` uses): the quotient is rounded to the nearest double
`± significand * 2^down / 2^up`, ties to even, and that double is floored. -/
def mathFloorDiv (a b : Int) : Int :=
  if a = 0 then 0
  else
    let scale := quotientScale a.natAbs b.natAbs
    let significand :=
      roundHalfEven (a.natAbs * 2 ^ scale.1) (b.natAbs * 2 ^ scale.2)
    if 0 < a then ((significand * 2 ^ scale.2 / 2 ^ scale.1 : Nat) : Int)
    else -((((significand * 2 ^ scale.2 + 2 ^ scale.1 - 1) / 2 ^ scale.1 : Nat)) : Int)

/-! ## Operations of `TWAPOracle` -/

/-- Method `addPriceSnapshot (timeperiodId, price, timestamp, intervalSecs)`. -/
def addPriceSnapshot (o : Oracle) (timeperiodId price timestamp intervalSecs : Int) : Oracle :=
  let priceHistory :=
    if mapHas o.priceHistory timeperiodId then o.priceHistory
    else
      let startTime := Int.fdiv timestamp intervalSecs * intervalSecs
      mapSet o.priceHistory timeperiodId
        { snapshots := [], startTime := startTime, endTime := startTime + intervalSecs }
  match mapGet priceHistory timeperiodId with
  | none => { o with priceHistory := priceHistory }
  | some history =>
    if timestamp ≥ history.startTime ∧ timestamp < history.endTime then
      let pushed : History :=
        { history with snapshots := history.snapshots ++ [⟨price, timestamp⟩] }
      { o with priceHistory := mapSet priceHistory timeperiodId pushed }
    else { o with priceHistory := priceHistory }

/-- The `for` loop of `calculateTWAP` over consecutive pairs, threading
`(weightedSum, totalWeight)`; the product `current.price * timeDiff` and the update of
`weightedSum` are double operations. -/
def pairLoop : List Snapshot → Int × Int → Int × Int
  | current :: next :: rest, (weightedSum, totalWeight) =>
    let timeDiff := next.timestamp - current.timestamp
    pairLoop (next :: rest)
      (toDouble (weightedSum + toDouble (current.price * timeDiff)), totalWeight + timeDiff)
  | _, acc => acc

/-- The step "handle last snapshot to end time" of `calculateTWAP`. -/
def tailStep (snapshots : List Snapshot) (endTime : Int) (acc : Int × Int) : Int × Int :=
  match snapshots.getLast? with
  | none => acc
  | some last =>
    if last.timestamp < endTime then
      let timeDiff := endTime - last.timestamp
      (toDouble (acc.1 + toDouble (last.price * timeDiff)), acc.2 + timeDiff)
    else acc

/-- Values of `(weightedSum, totalWeight)` when `calculateTWAP` reaches its final test. -/
def weights (history : History) : Int × Int :=
  tailStep history.snapshots history.endTime (pairLoop history.snapshots (0, 0))

/-- Value of `weightedSum` at the final test of `calculateTWAP`. -/
def weightedSum (history : History) : Int := (weights history).1

/-- Value of `totalWeight` at the final test of `calculateTWAP`. -/
def totalWeight (history : History) : Int := (weights history).2

/-- The reduction `snapshots.reduce ((acc, s) => acc + s.price, 0)`, each addition a
double operation. -/
def priceSum (snapshots : List Snapshot) : Int :=
  snapshots.foldl (fun acc s => toDouble (acc + s.price)) 0

/-- Body of `calculateTWAP` once the bucket has been looked up. -/
def computeTWAP (history : History) : Option Int :=
  match history.snapshots with
  | [] => none
  | [s] => some s.price
  | _ :: _ :: _ =>
    if totalWeight history > 0 then
      some (mathFloorDiv (weightedSum history) (totalWeight history))
    else
      some (mathFloorDiv (priceSum history.snapshots) (history.snapshots.length : Int))

/-- Method `calculateTWAP (timeperiodId)`; `none` is `null`. -/
def calculateTWAP (o : Oracle) (timeperiodId : Int) : Option Int :=
  match mapGet o.priceHistory timeperiodId with
  | none => none
  | some history => computeTWAP history

/-- Method `finalizeTWAP (timeperiodId)`: the returned value and the state afterwards. -/
def finalizeTWAP (o : Oracle) (timeperiodId : Int) : Option Int × Oracle :=
  match mapGet o.finalizedPrices timeperiodId with
  | some v => (some v, o)
  | none =>
    match calculateTWAP o timeperiodId with
    | some twap =>
      (some twap, { o with finalizedPrices := mapSet o.finalizedPrices timeperiodId twap })
    | none => (none, o)

/-- Method `getFinalizedPrice (timeperiodId)`; `none` is `undefined`. -/
def getFinalizedPrice (o : Oracle) (timeperiodId : Int) : Option Int :=
  mapGet o.finalizedPrices timeperiodId

/-- Method `getPriceHistory (timeperiodId)`. -/
def getPriceHistory (o : Oracle) (timeperiodId : Int) : Option History :=
  mapGet o.priceHistory timeperiodId

/-- The loop of `cleanupOldHistory` over the entries of `priceHistory`. -/
def cleanupLoop (oneHourAgo : Int) :
    List (Int × History) → List (Int × History) → List (Int × History)
  | [], m => m
  | (timeperiodId, history) :: rest, m =>
    if history.endTime < oneHourAgo then cleanupLoop oneHourAgo rest (mapDelete m timeperiodId)
    else cleanupLoop oneHourAgo rest m

/-- Method `cleanupOldHistory ()`, with `currentTime = Math.floor (Date.now () / 1000)`
passed in. -/
def cleanupOldHistory (o : Oracle) (currentTime : Int) : Oracle :=
  let oneHourAgo := currentTime - 3600
  { o with priceHistory := cleanupLoop oneHourAgo o.priceHistory o.priceHistory }

/-! ## The query handler of `index.js` -/

/-- JavaScript truthiness of a number-or-undefined value: `undefined` and `0` are falsy. -/
def truthy : Option Int → Bool
  | none => false
  | some v => decide (v ≠ 0)

/-- Handler `GET /api/twap/:timeperiodId`:
`getFinalizedPrice (id) || calculateTWAP (id)`; `some twap` is the 200 answer carrying
`twap`, `none` is the 404 answer. -/
def getTwap (o : Oracle) (timeperiodId : Int) : Option Int :=
  if truthy (getFinalizedPrice o timeperiodId) then getFinalizedPrice o timeperiodId
  else calculateTWAP o timeperiodId

/-- Function `broadcastPrice` of `index.js`, restricted to its effect on the oracle:
with a current price available it records it under the grid cell of `timestamp`. -/
def broadcastPrice (o : Oracle) (currentPrice : Option Int) (timestamp gridIntervalSeconds : Int) :
    Oracle :=
  match currentPrice with
  | none => o
  | some priceRaw =>
    let timeperiodId := Int.fdiv timestamp gridIntervalSeconds * gridIntervalSeconds
    addPriceSnapshot o timeperiodId priceRaw timestamp gridIntervalSeconds

/-! ## Operations as data -/

/-- The operations that touch the aggregation state. -/
inductive Op where
  | add (timeperiodId price timestamp intervalSecs : Int)
  | calculate (timeperiodId : Int)
  | finalize (timeperiodId : Int)
  | cleanup (currentTime : Int)
  | query (timeperiodId : Int)
  deriving DecidableEq, Repr

/-- State after one operation. -/
def step (o : Oracle) : Op → Oracle
  | .add timeperiodId price timestamp intervalSecs =>
    addPriceSnapshot o timeperiodId price timestamp intervalSecs
  | .calculate _ => o
  | .finalize timeperiodId => (finalizeTWAP o timeperiodId).2
  | .cleanup currentTime => cleanupOldHistory o currentTime
  | .query _ => o

/-- State after a sequence of operations. -/
def run (o : Oracle) (ops : List Op) : Oracle :=
  ops.foldl step o

/-! ## Reachable states -/

/-- States reachable from the constructor state by `addPriceSnapshot` with a positive
width, `finalizeTWAP` and `cleanupOldHistory`, together with a ghost record
`creatingWidth` of the `intervalSecs` argument of the call that created each bucket. -/
inductive Reach : Oracle → (Int → Int) → Prop where
  | init : Reach Oracle.empty (fun _ => 0)
  | add {o : Oracle} {creatingWidth : Int → Int} (timeperiodId price timestamp intervalSecs : Int) :
      Reach o creatingWidth → 0 < intervalSecs →
      Reach (addPriceSnapshot o timeperiodId price timestamp intervalSecs)
        (if mapHas o.priceHistory timeperiodId then creatingWidth
         else Function.update creatingWidth timeperiodId intervalSecs)
  | finalize {o : Oracle} {creatingWidth : Int → Int} (timeperiodId : Int) :
      Reach o creatingWidth → Reach (finalizeTWAP o timeperiodId).2 creatingWidth
  | cleanup {o : Oracle} {creatingWidth : Int → Int} (currentTime : Int) :
      Reach o creatingWidth → Reach (cleanupOldHistory o currentTime) creatingWidth

/-! ## Specification-level quantities -/

/-- Snapshot at index `i` of a bucket (indices past the end are never used below). -/
def snapAt (snapshots : List Snapshot) (i : Nat) : Snapshot :=
  snapshots.getD i ⟨0, 0⟩

/-- Weight of the pair `(s_i, s_{i+1})`: `s_{i+1}.timestamp - s_i.timestamp`. -/
def pairWeight (snapshots : List Snapshot) (i : Nat) : Int :=
  (snapAt snapshots (i + 1)).timestamp - (snapAt snapshots i).timestamp

/-- Weight of the tail segment: `endTime - s_n.timestamp` when the last snapshot is
before `endTime`, no segment otherwise. -/
def tailWeight (history : History) : Int :=
  let last := snapAt history.snapshots (history.snapshots.length - 1)
  if last.timestamp < history.endTime then history.endTime - last.timestamp else 0

/-- Numerator `N` of the specification: the pair terms `s_i.price * weight_i` for
`i < n`, plus the tail term `s_n.price * (endTime - s_n.timestamp)`. -/
def specNumerator (history : History) : Int :=
  (∑ i in Finset.range (history.snapshots.length - 1),
      (snapAt history.snapshots i).price * pairWeight history.snapshots i)
    + (snapAt history.snapshots (history.snapshots.length - 1)).price * tailWeight history

/-- Denominator `D` of the specification: the sum of the same weights. -/
def specDenominator (history : History) : Int :=
  (∑ i in Finset.range (history.snapshots.length - 1), pairWeight history.snapshots i)
    + tailWeight history

/-- The pair loop in exact integer arithmetic: what `pairLoop` computes when no
operation rounds. -/
def exactPairLoop : List Snapshot → Int × Int → Int × Int
  | current :: next :: rest, (weightedSum, totalWeight) =>
    let timeDiff := next.timestamp - current.timestamp
    exactPairLoop (next :: rest) (weightedSum + current.price * timeDiff, totalWeight + timeDiff)
  | _, acc => acc

/-- The tail step in exact integer arithmetic. -/
def exactTailStep (snapshots : List Snapshot) (endTime : Int) (acc : Int × Int) : Int × Int :=
  match snapshots.getLast? with
  | none => acc
  | some last =>
    if last.timestamp < endTime then
      let timeDiff := endTime - last.timestamp
      (acc.1 + last.price * timeDiff, acc.2 + timeDiff)
    else acc

/-- Exact `(weightedSum, totalWeight)` of a bucket. -/
def exactWeights (history : History) : Int × Int :=
  exactTailStep history.snapshots history.endTime (exactPairLoop history.snapshots (0, 0))

/-- Sum of the absolute values of the pair terms `s_i.price * weight_i`. -/
def magnitudeLoop : List Snapshot → Int
  | current :: next :: rest =>
    |current.price * (next.timestamp - current.timestamp)| + magnitudeLoop (next :: rest)
  | _ => 0

/-- Magnitude of the weighted sum of a bucket: the absolute values of all terms of the
numerator `N`, pair terms and tail term, added up. While it is below `2^53` every
product and every partial sum of `calculateTWAP` is an integer that a double holds
exactly. -/
def magnitude (history : History) : Int :=
  magnitudeLoop history.snapshots
    + |(snapAt history.snapshots (history.snapshots.length - 1)).price * tailWeight history|

/-- Smallest snapshot price of a bucket (`0` for an empty bucket). -/
def minPrice : List Snapshot → Int
  | [] => 0
  | [s] => s.price
  | s :: rest => min s.price (minPrice rest)

/-- Largest snapshot price of a bucket (`0` for an empty bucket). -/
def maxPrice : List Snapshot → Int
  | [] => 0
  | [s] => s.price
  | s :: rest => max s.price (maxPrice rest)

/-- The worked example of the specification: width 5, ticks `(100, t=10)`,
`(200, t=12)`, `(300, t=14)` recorded into interval `[10, 15)`. -/
def exampleOracle : Oracle :=
  addPriceSnapshot
    (addPriceSnapshot (addPriceSnapshot Oracle.empty 10 100 10 5) 10 200 12 5) 10 300 14 5

/-! ## Lemmas on maps -/

theorem mapGet_mapSet_self {V : Type} (m : List (Int × V)) (k : Int) (v : V) :
    mapGet (mapSet m k v) k = some v := by
  induction m with
  | nil => simp [mapSet, mapGet]
  | cons e rest ih =>
    obtain ⟨k', v'⟩ := e
    by_cases hk : k' = k
    · simp [mapSet, mapGet, hk]
    · simp [mapSet, mapGet, hk, ih]

theorem mapGet_mapSet_ne {V : Type} (m : List (Int × V)) (k k' : Int) (v : V) (hne : k' ≠ k) :
    mapGet (mapSet m k v) k' = mapGet m k' := by
  induction m with
  | nil => simp [mapSet, mapGet, Ne.symm hne]
  | cons e rest ih =>
    obtain ⟨k0, v0⟩ := e
    by_cases hk : k0 = k
    · subst hk
      simp [mapSet, mapGet, Ne.symm hne]
    · by_cases hk' : k0 = k'
      · subst hk'
        simp [mapSet, mapGet, hk]
      · simp [mapSet, mapGet, hk, hk', ih]

theorem mapDelete_cons {V : Type} (k0 : Int) (v0 : V) (rest : List (Int × V)) (k : Int) :
    mapDelete ((k0, v0) :: rest) k
      = if k0 = k then mapDelete rest k else (k0, v0) :: mapDelete rest k := by
  by_cases hk : k0 = k <;> simp [mapDelete, List.filter_cons, hk]

theorem mapGet_mapDelete {V : Type} (m : List (Int × V)) (k k' : Int) :
    mapGet (mapDelete m k) k' = if k' = k then none else mapGet m k' := by
  induction m with
  | nil => simp [mapDelete, mapGet]
  | cons e rest ih =>
    obtain ⟨k0, v0⟩ := e
    rw [mapDelete_cons]
    by_cases hk : k0 = k
    · subst hk
      by_cases hk' : k' = k0
      · subst hk'
        simp [ih]
      · simp [ih, hk', mapGet, Ne.symm hk']
    · by_cases hk' : k0 = k'
      · subst hk'
        simp [hk, mapGet]
      · simp [hk, mapGet, hk', ih]

theorem mapGet_of_mem {V : Type} (m : List (Int × V)) (k : Int) (v : V)
    (hnd : (mapKeys m).Nodup) (hmem : (k, v) ∈ m) : mapGet m k = some v := by
  induction m with
  | nil => simp at hmem
  | cons e rest ih =>
    obtain ⟨k0, v0⟩ := e
    simp only [mapKeys, List.map_cons, List.nodup_cons] at hnd
    rcases List.mem_cons.mp hmem with h | h
    · cases h
      simp [mapGet]
    · have hk : k0 ≠ k := by
        intro hk
        subst hk
        exact hnd.1 (List.mem_map.mpr ⟨(k0, v), h, rfl⟩)
      simp [mapGet, hk, ih hnd.2 h]

theorem mem_of_mapGet {V : Type} (m : List (Int × V)) (k : Int) (v : V)
    (hget : mapGet m k = some v) : (k, v) ∈ m := by
  induction m with
  | nil => simp [mapGet] at hget
  | cons e rest ih =>
    obtain ⟨k0, v0⟩ := e
    by_cases hk : k0 = k
    · subst hk
      simp [mapGet] at hget
      simp [hget]
    · simp [mapGet, hk] at hget
      exact List.mem_cons_of_mem _ (ih hget)

/-! ## Lemmas on double-precision arithmetic -/

theorem log2Fuel_eq (fuel n : Nat) (h : n ≤ fuel) : log2Fuel fuel n = Nat.log2 n := by
  induction fuel generalizing n with
  | zero =>
    have : n = 0 := by omega
    subst this
    simp [log2Fuel, Nat.log2]
  | succ f ih =>
    rw [log2Fuel, Nat.log2]
    by_cases h2 : 2 ≤ n
    · simp only [h2, if_true, ge_iff_le]
      rw [ih (n / 2) (by omega)]
    · simp [h2]

theorem floorLog2_eq (n : Nat) : floorLog2 n = Nat.log2 n := log2Fuel_eq n n (le_refl n)

theorem roundHalfEven_spec (num den : Nat) (hden : 0 < den) :
    2 * (roundHalfEven num den * den) ≤ 2 * num + den
      ∧ 2 * num ≤ 2 * (roundHalfEven num den * den) + den := by
  have hdm := Nat.div_add_mod num den
  have hr := Nat.mod_lt num hden
  have hq : num / den * den = den * (num / den) := Nat.mul_comm _ _
  have hq1 : (num / den + 1) * den = den * (num / den) + den := by
    rw [Nat.add_mul, Nat.one_mul, hq]
  unfold roundHalfEven
  simp only
  split
  · rw [hq]; omega
  · split
    · rw [hq1]; omega
    · split
      · rw [hq]; omega
      · rw [hq1]; omega

theorem quotientScale_of_small (a b : Nat) (ha : 0 < a) (hlt : a < 2 ^ 53) :
    (quotientScale a b).2 = 0 ∧ b * 2 ^ 52 ≤ a * 2 ^ (quotientScale a b).1 := by
  have hla : Nat.log2 a < 53 := (Nat.log2_lt (Nat.pos_iff_ne_zero.mp ha)).mpr hlt
  have hpa : 2 ^ Nat.log2 a ≤ a := Nat.log2_self_le (Nat.pos_iff_ne_zero.mp ha)
  have hpb : b < 2 ^ (Nat.log2 b + 1) := Nat.lt_log2_self
  unfold quotientScale
  simp only [floorLog2_eq]
  have hbranch : Nat.log2 a ≤ 52 + Nat.log2 b := by omega
  simp only [hbranch, if_true]
  split
  · rename_i h
    exact ⟨rfl, h⟩
  · refine ⟨rfl, ?_⟩
    show b * 2 ^ 52 ≤ a * 2 ^ (52 + Nat.log2 b - Nat.log2 a + 1)
    have h1 : 2 ^ Nat.log2 a * 2 ^ (52 + Nat.log2 b - Nat.log2 a + 1)
        ≤ a * 2 ^ (52 + Nat.log2 b - Nat.log2 a + 1) := Nat.mul_le_mul_right _ hpa
    have h2 : 2 ^ Nat.log2 a * 2 ^ (52 + Nat.log2 b - Nat.log2 a + 1)
        = 2 ^ (Nat.log2 b + 1) * 2 ^ 52 := by
      rw [← Nat.pow_add, ← Nat.pow_add]
      congr 1
      omega
    have h3 : b * 2 ^ 52 ≤ 2 ^ (Nat.log2 b + 1) * 2 ^ 52 :=
      Nat.mul_le_mul_right _ (Nat.le_of_lt hpb)
    omega

theorem rounded_floor_ceil (a b up m : Nat) (hb : 0 < b) (hlt : a < 2 ^ 53)
    (hscale : b * 2 ^ 52 ≤ a * 2 ^ up)
    (h1 : 2 * (m * b) ≤ 2 * (a * 2 ^ up) + b) (h2 : 2 * (a * 2 ^ up) ≤ 2 * (m * b) + b) :
    m / 2 ^ up = a / b ∧ (m + 2 ^ up - 1) / 2 ^ up = (a + b - 1) / b := by
  have hS : 0 < 2 ^ up := Nat.two_pow_pos up
  generalize 2 ^ up = S at *
  have hdm := Nat.div_add_mod a b
  have hr := Nat.mod_lt a hb
  generalize a / b = n at *
  generalize a % b = r at *
  have haS : a * S ≤ (2 ^ 53 - 1) * S := Nat.mul_le_mul_right _ (by omega)
  have hbS : b < 2 * S := by omega
  have hT : a * S = n * S * b + r * S := by
    rw [← hdm]; ring
  have hU : r * S + S ≤ b * S := by
    have : (r + 1) * S ≤ b * S := Nat.mul_le_mul_right _ hr
    rw [Nat.add_mul, Nat.one_mul] at this
    exact this
  have hlow : n * S ≤ m := by
    by_contra hc
    have : (m + 1) * b ≤ n * S * b := Nat.mul_le_mul_right _ (by omega)
    rw [Nat.add_mul, Nat.one_mul] at this
    omega
  have hup : m < (n + 1) * S := by
    by_contra hc
    have : (n + 1) * S * b ≤ m * b := Nat.mul_le_mul_right _ (by omega)
    have e : (n + 1) * S * b = n * S * b + b * S := by ring
    rw [e] at this
    omega
  have hupS : (n + 1) * S = n * S + S := by ring
  constructor
  · exact Nat.div_eq_of_lt_le hlow hup
  · by_cases hr0 : r = 0
    · subst hr0
      have hm : m = n * S := by
        apply Nat.le_antisymm _ hlow
        by_contra hc
        have : (n * S + 1) * b ≤ m * b := Nat.mul_le_mul_right _ (by omega)
        rw [Nat.add_mul, Nat.one_mul] at this
        omega
      have hc1 : (a + b - 1) / b = n := by
        apply Nat.div_eq_of_lt_le
        · rw [Nat.mul_comm]; omega
        · rw [Nat.add_mul, Nat.one_mul, Nat.mul_comm]; omega
      rw [hc1, hm]
      apply Nat.div_eq_of_lt_le
      · omega
      · rw [hupS]; omega
    · have hm : n * S < m := by
        by_contra hc
        have : m * b ≤ n * S * b := Nat.mul_le_mul_right _ (by omega)
        have hrS : S ≤ r * S := Nat.le_mul_of_pos_left _ (by omega)
        omega
      have hc1 : (a + b - 1) / b = n + 1 := by
        apply Nat.div_eq_of_lt_le
        · rw [Nat.add_mul, Nat.one_mul, Nat.mul_comm]; omega
        · rw [Nat.add_mul, Nat.add_mul, Nat.one_mul, Nat.mul_comm]; omega
      rw [hc1]
      apply Nat.div_eq_of_lt_le
      · rw [hupS]; omega
      · have : (n + 1 + 1) * S = n * S + S + S := by ring
        rw [this]; omega

theorem neg_ediv_natCast (a b : Nat) (hb : 0 < b) :
    (-(a : Int)) / (b : Int) = -(((a + b - 1) / b : Nat) : Int) := by
  have hdm := Nat.div_add_mod (a + b - 1) b
  have hr := Nat.mod_lt (a + b - 1) hb
  generalize (a + b - 1) / b = c at *
  generalize (a + b - 1) % b = r at *
  have hbc : ((b * c : Nat) : Int) = (b : Int) * (c : Int) := by push_cast; rfl
  have key := (Int.ediv_emod_unique (a := -(a : Int)) (b := (b : Int))
    (r := (b : Int) - 1 - (r : Int)) (q := -(c : Int)) (by omega)).mpr
    ⟨by rw [Int.mul_neg, ← hbc]; omega, by omega, by omega⟩
  exact key.1

theorem toDouble_of_lt (n : Int) (h : |n| < 2 ^ 53) : toDouble n = n := by
  have : n.natAbs < 2 ^ 53 := by
    have h2 := Int.abs_eq_natAbs n
    omega
  unfold toDouble
  rw [if_pos this]

theorem toDouble_zero : toDouble 0 = 0 := by decide

theorem mathFloorDiv_eq_fdiv (a b : Int) (hb : 0 < b) (ha : |a| < 2 ^ 53) :
    mathFloorDiv a b = Int.fdiv a b := by
  rw [Int.fdiv_eq_ediv a (le_of_lt hb)]
  by_cases h0 : a = 0
  · simp [mathFloorDiv, h0]
  have hA : 0 < a.natAbs := Int.natAbs_pos.mpr h0
  have hB : 0 < b.natAbs := Int.natAbs_pos.mpr (ne_of_gt hb)
  have hlt : a.natAbs < 2 ^ 53 := by
    have h2 := Int.abs_eq_natAbs a
    omega
  have hbB : b = (b.natAbs : Int) := (Int.natAbs_of_nonneg (le_of_lt hb)).symm
  obtain ⟨hdown, hscale⟩ := quotientScale_of_small a.natAbs b.natAbs hA hlt
  have hspec := roundHalfEven_spec (a.natAbs * 2 ^ (quotientScale a.natAbs b.natAbs).1)
    b.natAbs hB
  obtain ⟨hfloor, hceil⟩ := rounded_floor_ceil a.natAbs b.natAbs
    (quotientScale a.natAbs b.natAbs).1 _ hB hlt hscale hspec.1 hspec.2
  unfold mathFloorDiv
  simp only [h0, if_false, hdown, pow_zero, mul_one]
  by_cases hpos : 0 < a
  · simp only [hpos, if_true]
    rw [hfloor]
    have haA : a = (a.natAbs : Int) := (Int.natAbs_of_nonneg (le_of_lt hpos)).symm
    rw [Int.natCast_div, ← haA, ← hbB]
  · simp only [hpos, if_false]
    rw [hceil]
    have haA : a = -(a.natAbs : Int) := by omega
    rw [← neg_ediv_natCast _ _ hB, ← haA, ← hbB]

/-! ## Lemmas on the weighting loop -/

theorem floor_rat_div (n d : Int) (hd : 0 < d) : ⌊(n : ℚ) / (d : ℚ)⌋ = Int.fdiv n d := by
  rw [Int.fdiv_eq_ediv n (le_of_lt hd)]
  obtain ⟨k, rfl⟩ := Int.eq_ofNat_of_zero_le (le_of_lt hd)
  exact_mod_cast Rat.floor_intCast_div_natCast n k

theorem exactPairLoop_acc (l : List Snapshot) (a b : Int) :
    exactPairLoop l (a, b)
      = (a + (exactPairLoop l (0, 0)).1, b + (exactPairLoop l (0, 0)).2) := by
  induction l generalizing a b with
  | nil => simp [exactPairLoop]
  | cons c rest ih =>
    cases rest with
    | nil => simp [exactPairLoop]
    | cons n r =>
      simp only [exactPairLoop]
      rw [ih, ih (0 + _) (0 + _)]
      simp only [zero_add, add_assoc]

theorem snapAt_cons_succ (c : Snapshot) (l : List Snapshot) (i : Nat) :
    snapAt (c :: l) (i + 1) = snapAt l i := by
  simp [snapAt]

theorem pairWeight_cons_succ (c : Snapshot) (l : List Snapshot) (i : Nat) :
    pairWeight (c :: l) (i + 1) = pairWeight l i := by
  simp [pairWeight, snapAt_cons_succ]

theorem exactPairLoop_eq_sums (l : List Snapshot) :
    exactPairLoop l (0, 0)
      = (∑ i in Finset.range (l.length - 1), (snapAt l i).price * pairWeight l i,
         ∑ i in Finset.range (l.length - 1), pairWeight l i) := by
  induction l with
  | nil => simp [exactPairLoop]
  | cons c rest ih =>
    cases rest with
    | nil => simp [exactPairLoop]
    | cons n r =>
      simp only [exactPairLoop]
      rw [exactPairLoop_acc, ih]
      simp only [List.length_cons, Nat.add_sub_cancel, zero_add]
      rw [Finset.sum_range_succ', Finset.sum_range_succ']
      simp only [snapAt_cons_succ, pairWeight_cons_succ]
      simp [pairWeight, snapAt, add_comm]

theorem getLast?_eq_snapAt (l : List Snapshot) (hne : l ≠ []) :
    l.getLast? = some (snapAt l (l.length - 1)) := by
  rw [List.getLast?_eq_getElem?]
  have hlt : l.length - 1 < l.length := Nat.sub_lt (List.length_pos.mpr hne) Nat.one_pos
  simp [snapAt, List.getD_eq_getElem?_getD, List.getElem?_eq_getElem hlt]

theorem exactWeights_eq_spec (history : History) (hne : history.snapshots ≠ []) :
    exactWeights history = (specNumerator history, specDenominator history) := by
  unfold exactWeights exactTailStep specNumerator specDenominator tailWeight
  rw [getLast?_eq_snapAt _ hne, exactPairLoop_eq_sums]
  by_cases hlt : (snapAt history.snapshots (history.snapshots.length - 1)).timestamp
      < history.endTime
  · simp [hlt]
  · simp [hlt]

theorem pairLoop_snd (l : List Snapshot) (a a' b : Int) :
    (pairLoop l (a, b)).2 = (exactPairLoop l (a', b)).2 := by
  induction l generalizing a a' b with
  | nil => simp [pairLoop, exactPairLoop]
  | cons c rest ih =>
    cases rest with
    | nil => simp [pairLoop, exactPairLoop]
    | cons n r =>
      simp only [pairLoop, exactPairLoop]
      exact ih _ _ _

theorem tailStep_snd (l : List Snapshot) (endTime : Int) (acc acc' : Int × Int)
    (h : acc.2 = acc'.2) :
    (tailStep l endTime acc).2 = (exactTailStep l endTime acc').2 := by
  unfold tailStep exactTailStep
  split
  · exact h
  · split
    · simp [h]
    · exact h

theorem totalWeight_eq_exact (history : History) :
    totalWeight history = (exactWeights history).2 := by
  unfold totalWeight weights exactWeights
  exact tailStep_snd _ _ _ _ (pairLoop_snd _ _ _ _)

theorem magnitudeLoop_nonneg (l : List Snapshot) : 0 ≤ magnitudeLoop l := by
  induction l with
  | nil => simp [magnitudeLoop]
  | cons c rest ih =>
    cases rest with
    | nil => simp [magnitudeLoop]
    | cons n r =>
      simp only [magnitudeLoop]
      exact add_nonneg (abs_nonneg _) ih

theorem exactPairLoop_abs (l : List Snapshot) (a b : Int) :
    |(exactPairLoop l (a, b)).1| ≤ |a| + magnitudeLoop l := by
  induction l generalizing a b with
  | nil => simp [exactPairLoop, magnitudeLoop]
  | cons c rest ih =>
    cases rest with
    | nil => simp [exactPairLoop, magnitudeLoop]
    | cons n r =>
      simp only [exactPairLoop, magnitudeLoop]
      have h1 := ih (a + c.price * (n.timestamp - c.timestamp)) (b + (n.timestamp - c.timestamp))
      have h2 := abs_add a (c.price * (n.timestamp - c.timestamp))
      linarith

theorem pairLoop_eq_exact (l : List Snapshot) (a b : Int)
    (h : |a| + magnitudeLoop l < 2 ^ 53) : pairLoop l (a, b) = exactPairLoop l (a, b) := by
  induction l generalizing a b with
  | nil => simp [pairLoop, exactPairLoop]
  | cons c rest ih =>
    cases rest with
    | nil => simp [pairLoop, exactPairLoop]
    | cons n r =>
      simp only [magnitudeLoop] at h
      have hm := magnitudeLoop_nonneg (n :: r)
      have ha := abs_nonneg a
      have hsum := abs_add a (c.price * (n.timestamp - c.timestamp))
      simp only [pairLoop, exactPairLoop]
      rw [toDouble_of_lt (c.price * (n.timestamp - c.timestamp)) (by linarith),
        toDouble_of_lt (a + c.price * (n.timestamp - c.timestamp)) (by linarith)]
      exact ih _ _ (by linarith)

theorem weights_eq_exact (history : History) (hne : history.snapshots ≠ [])
    (hmag : magnitude history < 2 ^ 53) : weights history = exactWeights history := by
  unfold magnitude at hmag
  have hm := magnitudeLoop_nonneg history.snapshots
  have ht := abs_nonneg
    ((snapAt history.snapshots (history.snapshots.length - 1)).price * tailWeight history)
  have hloop : pairLoop history.snapshots (0, 0) = exactPairLoop history.snapshots (0, 0) :=
    pairLoop_eq_exact _ 0 0 (by rw [abs_zero]; linarith)
  have hacc := exactPairLoop_abs history.snapshots 0 0
  rw [abs_zero, zero_add] at hacc
  unfold weights exactWeights tailStep exactTailStep
  rw [hloop, getLast?_eq_snapAt _ hne]
  simp only
  by_cases hlt : (snapAt history.snapshots (history.snapshots.length - 1)).timestamp
      < history.endTime
  · simp only [hlt, if_true]
    simp only [tailWeight, hlt, if_true] at hmag ht
    have hsum := abs_add (exactPairLoop history.snapshots (0, 0)).1
      ((snapAt history.snapshots (history.snapshots.length - 1)).price
        * (history.endTime
          - (snapAt history.snapshots (history.snapshots.length - 1)).timestamp))
    rw [toDouble_of_lt
        ((snapAt history.snapshots (history.snapshots.length - 1)).price
          * (history.endTime
            - (snapAt history.snapshots (history.snapshots.length - 1)).timestamp))
        (by linarith),
      toDouble_of_lt _ (by linarith)]
  · simp only [hlt, if_false]

theorem exactWeights_abs (history : History) (hne : history.snapshots ≠ []) :
    |(exactWeights history).1| ≤ magnitude history := by
  have hacc := exactPairLoop_abs history.snapshots 0 0
  rw [abs_zero, zero_add] at hacc
  unfold exactWeights exactTailStep magnitude
  rw [getLast?_eq_snapAt _ hne]
  simp only
  by_cases hlt : (snapAt history.snapshots (history.snapshots.length - 1)).timestamp
      < history.endTime
  · simp only [hlt, if_true, tailWeight]
    have hsum := abs_add (exactPairLoop history.snapshots (0, 0)).1
      ((snapAt history.snapshots (history.snapshots.length - 1)).price
        * (history.endTime
          - (snapAt history.snapshots (history.snapshots.length - 1)).timestamp))
    linarith
  · simp only [hlt, if_false]
    have ht := abs_nonneg
      ((snapAt history.snapshots (history.snapshots.length - 1)).price * tailWeight history)
    linarith

theorem specDenominator_telescope (history : History) :
    specDenominator history
      = (snapAt history.snapshots (history.snapshots.length - 1)).timestamp
          - (snapAt history.snapshots 0).timestamp + tailWeight history := by
  unfold specDenominator pairWeight
  rw [Finset.sum_range_sub (fun i => (snapAt history.snapshots i).timestamp)]

theorem totalWeight_eq_of_last_lt (history : History) (hne : history.snapshots ≠ [])
    (hlast : (snapAt history.snapshots (history.snapshots.length - 1)).timestamp
      < history.endTime) :
    totalWeight history = history.endTime - (snapAt history.snapshots 0).timestamp := by
  rw [totalWeight_eq_exact, exactWeights_eq_spec history hne, specDenominator_telescope]
  simp only [tailWeight, hlast, if_true]
  ring

theorem snapAt_mem (l : List Snapshot) (i : Nat) (hi : i < l.length) : snapAt l i ∈ l := by
  simp only [snapAt, List.getD_eq_getElem?_getD, List.getElem?_eq_getElem hi, Option.getD_some]
  exact List.getElem_mem hi

theorem exactPairLoop_bounds (l : List Snapshot) (lo hi : Int)
    (hmono : List.Chain' (fun a b : Snapshot => a.timestamp ≤ b.timestamp) l)
    (hp : ∀ s ∈ l, lo ≤ s.price ∧ s.price ≤ hi) :
    lo * (exactPairLoop l (0, 0)).2 ≤ (exactPairLoop l (0, 0)).1
      ∧ (exactPairLoop l (0, 0)).1 ≤ hi * (exactPairLoop l (0, 0)).2 := by
  induction l with
  | nil => simp [exactPairLoop]
  | cons c rest ih =>
    cases rest with
    | nil => simp [exactPairLoop]
    | cons n r =>
      simp only [exactPairLoop]
      rw [exactPairLoop_acc]
      simp only [zero_add]
      have hcn : c.timestamp ≤ n.timestamp := (List.chain'_cons.mp hmono).1
      have hrec := ih (List.chain'_cons.mp hmono).2
        (fun s hs => hp s (List.mem_cons_of_mem _ hs))
      have hc := hp c (List.mem_cons_self _ _)
      have hd : 0 ≤ n.timestamp - c.timestamp := by omega
      have h1 : lo * (n.timestamp - c.timestamp) ≤ c.price * (n.timestamp - c.timestamp) :=
        mul_le_mul_of_nonneg_right hc.1 hd
      have h2 : c.price * (n.timestamp - c.timestamp) ≤ hi * (n.timestamp - c.timestamp) :=
        mul_le_mul_of_nonneg_right hc.2 hd
      constructor
      · rw [mul_add]; exact add_le_add h1 hrec.1
      · rw [mul_add]; exact add_le_add h2 hrec.2

theorem minPrice_le (l : List Snapshot) (s : Snapshot) (hs : s ∈ l) : minPrice l ≤ s.price := by
  induction l with
  | nil => simp at hs
  | cons c rest ih =>
    cases rest with
    | nil =>
      simp at hs
      simp [minPrice, hs]
    | cons n r =>
      simp only [minPrice]
      rcases List.mem_cons.mp hs with h | h
      · subst h
        exact min_le_left _ _
      · exact le_trans (min_le_right _ _) (ih h)

theorem le_maxPrice (l : List Snapshot) (s : Snapshot) (hs : s ∈ l) : s.price ≤ maxPrice l := by
  induction l with
  | nil => simp at hs
  | cons c rest ih =>
    cases rest with
    | nil =>
      simp at hs
      simp [maxPrice, hs]
    | cons n r =>
      simp only [maxPrice]
      rcases List.mem_cons.mp hs with h | h
      · subst h
        exact le_max_left _ _
      · exact le_trans (ih h) (le_max_right _ _)

theorem exactWeights_bounds (history : History) (lo hi : Int) (hne : history.snapshots ≠ [])
    (hmono : List.Chain' (fun a b : Snapshot => a.timestamp ≤ b.timestamp) history.snapshots)
    (hp : ∀ s ∈ history.snapshots, lo ≤ s.price ∧ s.price ≤ hi) :
    lo * (exactWeights history).2 ≤ (exactWeights history).1
      ∧ (exactWeights history).1 ≤ hi * (exactWeights history).2 := by
  unfold exactWeights exactTailStep
  rw [getLast?_eq_snapAt _ hne]
  have hb := exactPairLoop_bounds history.snapshots lo hi hmono hp
  have hlast := hp _ (snapAt_mem history.snapshots (history.snapshots.length - 1)
    (Nat.sub_lt (List.length_pos.mpr hne) Nat.one_pos))
  by_cases hlt : (snapAt history.snapshots (history.snapshots.length - 1)).timestamp
      < history.endTime
  · simp only [hlt, if_true]
    have hd : 0 ≤ history.endTime
        - (snapAt history.snapshots (history.snapshots.length - 1)).timestamp := by omega
    constructor
    · rw [mul_add]; exact add_le_add hb.1 (mul_le_mul_of_nonneg_right hlast.1 hd)
    · rw [mul_add]; exact add_le_add hb.2 (mul_le_mul_of_nonneg_right hlast.2 hd)
  · simp only [hlt, if_false]
    exact hb

theorem computeTWAP_of_pos (history : History) (hlen : 2 ≤ history.snapshots.length)
    (hpos : 0 < totalWeight history) :
    computeTWAP history
      = some (mathFloorDiv (weightedSum history) (totalWeight history)) := by
  unfold computeTWAP
  split
  · rename_i h; rw [h] at hlen; simp at hlen
  · rename_i h; rw [h] at hlen; simp at hlen
  · simp [hpos]

theorem computeTWAP_exact (history : History) (hlen : 2 ≤ history.snapshots.length)
    (hpos : 0 < (exactWeights history).2) (hmag : magnitude history < 2 ^ 53) :
    computeTWAP history
      = some (Int.fdiv (exactWeights history).1 (exactWeights history).2) := by
  have hne : history.snapshots ≠ [] := by
    intro h; rw [h] at hlen; simp at hlen
  have htw := totalWeight_eq_exact history
  have hws : weightedSum history = (exactWeights history).1 := by
    unfold weightedSum
    rw [weights_eq_exact history hne hmag]
  rw [computeTWAP_of_pos history hlen (htw ▸ hpos), htw, hws]
  rw [mathFloorDiv_eq_fdiv _ _ hpos
    (lt_of_le_of_lt (exactWeights_abs history hne) hmag)]

/-- Claim C1, as stated, fails for large prices, because `calculateTWAP` computes in
doubles: the bucket `[10, 15)` built by `addPriceSnapshot (10, 3002399751580331, 10, 5)`
and `addPriceSnapshot (10, 1, 13, 5)` has `N = 9007199254740995` and `D = 5`, so
`floor (N / D) = 1801439850948199`, but the product `3002399751580331 * 3` is rounded to
`2^53` and `calculateTWAP` returns `1801439850948198`. -/
theorem calculateTWAP_rounds_large_prices :
    getPriceHistory
        (addPriceSnapshot (addPriceSnapshot Oracle.empty 10 3002399751580331 10 5) 10 1 13 5) 10
        = some ⟨[⟨3002399751580331, 10⟩, ⟨1, 13⟩], 10, 15⟩
      ∧ specNumerator ⟨[⟨3002399751580331, 10⟩, ⟨1, 13⟩], 10, 15⟩ = 9007199254740995
      ∧ specDenominator ⟨[⟨3002399751580331, 10⟩, ⟨1, 13⟩], 10, 15⟩ = 5
      ∧ ⌊((9007199254740995 : Int) : ℚ) / ((5 : Int) : ℚ)⌋ = 1801439850948199
      ∧ calculateTWAP
          (addPriceSnapshot (addPriceSnapshot Oracle.empty 10 3002399751580331 10 5) 10 1 13 5)
          10 = some 1801439850948198 := by
  refine ⟨by decide, by decide, by decide, ?_, by decide⟩
  rw [floor_rat_div _ _ (by decide)]
  decide

/-- Claim C1, amended: for a bucket with two or more snapshots, positive total weight
and magnitude below `2^53` (the absolute values of the terms of `N` add up to less than
`2^53`, so no double operation rounds), `calculateTWAP` returns `floor (N / D)`, where
`N` is the sum of `s_i.price` times `s_{i+1}.timestamp - s_i.timestamp` over the
consecutive pairs plus the tail term `s_n.price * (endTime - s_n.timestamp)` when
`s_n.timestamp < endTime`, and `D` is the sum of the same weights; for width 5 and ticks
`(100, t=10)`, `(200, t=12)`, `(300, t=14)` recorded into `[10, 15)` the result is
`180`. -/
theorem calculateTWAP_eq_floor_weighted_average (o : Oracle) (timeperiodId : Int)
    (history : History)
    (hget : mapGet o.priceHistory timeperiodId = some history)
    (hlen : 2 ≤ history.snapshots.length)
    (hpos : 0 < specDenominator history)
    (hmag : magnitude history < 2 ^ 53) :
    calculateTWAP o timeperiodId
        = some ⌊(specNumerator history : ℚ) / (specDenominator history : ℚ)⌋
      ∧ getPriceHistory exampleOracle 10
        = some ⟨[⟨100, 10⟩, ⟨200, 12⟩, ⟨300, 14⟩], 10, 15⟩
      ∧ calculateTWAP exampleOracle 10 = some 180 := by
  have hne : history.snapshots ≠ [] := by
    intro h; rw [h] at hlen; simp at hlen
  have hw := exactWeights_eq_spec history hne
  have h1 : (exactWeights history).1 = specNumerator history := by rw [hw]
  have h2 : (exactWeights history).2 = specDenominator history := by rw [hw]
  refine ⟨?_, by decide, by decide⟩
  unfold calculateTWAP
  rw [hget]
  simp only
  rw [computeTWAP_exact history hlen (h2 ▸ hpos) hmag, h1, h2, floor_rat_div _ _ hpos]

theorem calculateTWAP_eq_floor_weighted_average_witness :
    calculateTWAP exampleOracle 10
        = some ⌊(specNumerator ⟨[⟨100, 10⟩, ⟨200, 12⟩, ⟨300, 14⟩], 10, 15⟩ : ℚ)
            / (specDenominator ⟨[⟨100, 10⟩, ⟨200, 12⟩, ⟨300, 14⟩], 10, 15⟩ : ℚ)⌋
      ∧ getPriceHistory exampleOracle 10
        = some ⟨[⟨100, 10⟩, ⟨200, 12⟩, ⟨300, 14⟩], 10, 15⟩
      ∧ calculateTWAP exampleOracle 10 = some 180 :=
  calculateTWAP_eq_floor_weighted_average exampleOracle 10
    ⟨[⟨100, 10⟩, ⟨200, 12⟩, ⟨300, 14⟩], 10, 15⟩ (by decide) (by decide) (by decide)
    (by decide)

theorem chain_lt_to_le (l : List Snapshot)
    (h : List.Chain' (fun a b : Snapshot => a.timestamp < b.timestamp) l) :
    List.Chain' (fun a b : Snapshot => a.timestamp ≤ b.timestamp) l :=
  List.Chain'.imp (fun _ _ hab => le_of_lt hab) h

theorem fdiv_between (lo hi s w : Int) (hw : 0 < w) (h1 : lo * w ≤ s) (h2 : s ≤ hi * w) :
    lo ≤ Int.fdiv s w ∧ Int.fdiv s w ≤ hi := by
  rw [Int.fdiv_eq_ediv s (le_of_lt hw)]
  exact ⟨Int.le_ediv_of_mul_le hw h1, Int.ediv_le_of_le_mul hw h2⟩

/-- Claim C2, as stated, fails for large prices, because `calculateTWAP` computes in
doubles: the bucket `[10, 15)` built by `addPriceSnapshot (10, 2^53 - 1, 10, 5)` and
`addPriceSnapshot (10, 2^53 - 1, 11, 5)` has strictly increasing timestamps before
`endTime` and both prices equal to `9007199254740991`, yet `calculateTWAP` returns
`9007199254740990`, below the minimum price. -/
theorem calculateTWAP_below_min_for_large_prices :
    getPriceHistory
        (addPriceSnapshot (addPriceSnapshot Oracle.empty 10 9007199254740991 10 5)
          10 9007199254740991 11 5) 10
        = some ⟨[⟨9007199254740991, 10⟩, ⟨9007199254740991, 11⟩], 10, 15⟩
      ∧ minPrice [⟨9007199254740991, 10⟩, ⟨9007199254740991, 11⟩] = 9007199254740991
      ∧ calculateTWAP
          (addPriceSnapshot (addPriceSnapshot Oracle.empty 10 9007199254740991 10 5)
            10 9007199254740991 11 5) 10 = some 9007199254740990
      ∧ (9007199254740990 : Int) < minPrice [⟨9007199254740991, 10⟩, ⟨9007199254740991, 11⟩] := by
  decide

/-- Claim C2, amended: for a bucket whose snapshots have strictly increasing timestamps
`t0 < t1 < ... < tn`, all before `endTime`, the total weight used by `calculateTWAP`
equals `endTime - t0`; when moreover the magnitude of the bucket is below `2^53` (so no
double operation rounds), the value `v` that `calculateTWAP` returns satisfies
`min (price) ≤ v ≤ max (price)` over the snapshot prices of the bucket. -/
theorem calculateTWAP_sorted_total_weight_and_bounds (o : Oracle) (timeperiodId : Int)
    (history : History)
    (hget : mapGet o.priceHistory timeperiodId = some history)
    (hne : history.snapshots ≠ [])
    (hsorted : List.Chain' (fun a b : Snapshot => a.timestamp < b.timestamp) history.snapshots)
    (hend : ∀ s ∈ history.snapshots, s.timestamp < history.endTime) :
    totalWeight history = history.endTime - (snapAt history.snapshots 0).timestamp
      ∧ (magnitude history < 2 ^ 53 →
          ∃ v, calculateTWAP o timeperiodId = some v
            ∧ minPrice history.snapshots ≤ v ∧ v ≤ maxPrice history.snapshots) := by
  have hpos_len : 0 < history.snapshots.length := List.length_pos.mpr hne
  have hlast := hend _ (snapAt_mem history.snapshots (history.snapshots.length - 1)
    (Nat.sub_lt hpos_len Nat.one_pos))
  have hfirst := hend _ (snapAt_mem history.snapshots 0 hpos_len)
  have htw := totalWeight_eq_of_last_lt history hne hlast
  refine ⟨htw, ?_⟩
  intro hmag
  unfold calculateTWAP
  rw [hget]
  simp only
  by_cases hlen : 2 ≤ history.snapshots.length
  · have hpos : 0 < (exactWeights history).2 := by
      rw [← totalWeight_eq_exact, htw]; omega
    rw [computeTWAP_exact history hlen hpos hmag]
    have hb := exactWeights_bounds history (minPrice history.snapshots)
      (maxPrice history.snapshots) hne (chain_lt_to_le _ hsorted)
      (fun s hs => ⟨minPrice_le _ s hs, le_maxPrice _ s hs⟩)
    exact ⟨_, rfl, fdiv_between _ _ _ _ hpos hb.1 hb.2⟩
  · have hone : ∃ s, history.snapshots = [s] := by
      match hs : history.snapshots with
      | [] => exact absurd hs hne
      | [s] => exact ⟨s, rfl⟩
      | _ :: _ :: _ => rw [hs] at hlen; simp at hlen
    obtain ⟨s, hs⟩ := hone
    refine ⟨s.price, ?_, ?_, ?_⟩
    · simp [computeTWAP, hs]
    · simp [hs, minPrice]
    · simp [hs, maxPrice]

theorem calculateTWAP_sorted_total_weight_and_bounds_witness :
    totalWeight ⟨[⟨100, 10⟩, ⟨200, 12⟩, ⟨300, 14⟩], 10, 15⟩
        = 15 - (snapAt [⟨100, 10⟩, ⟨200, 12⟩, ⟨300, 14⟩] 0).timestamp
      ∧ ∃ v, calculateTWAP exampleOracle 10 = some v
          ∧ minPrice [⟨100, 10⟩, ⟨200, 12⟩, ⟨300, 14⟩] ≤ v
          ∧ v ≤ maxPrice [⟨100, 10⟩, ⟨200, 12⟩, ⟨300, 14⟩] :=
  ⟨(calculateTWAP_sorted_total_weight_and_bounds exampleOracle 10
      ⟨[⟨100, 10⟩, ⟨200, 12⟩, ⟨300, 14⟩], 10, 15⟩ (by decide) (by decide) (by simp)
      (by decide)).1,
    (calculateTWAP_sorted_total_weight_and_bounds exampleOracle 10
      ⟨[⟨100, 10⟩, ⟨200, 12⟩, ⟨300, 14⟩], 10, 15⟩ (by decide) (by decide) (by simp)
      (by decide)).2 (by decide)⟩

/-! ## Finalization cache -/

theorem addPriceSnapshot_finalizedPrices (o : Oracle)
    (timeperiodId price timestamp intervalSecs : Int) :
    (addPriceSnapshot o timeperiodId price timestamp intervalSecs).finalizedPrices
      = o.finalizedPrices := by
  unfold addPriceSnapshot
  simp only
  split
  · rfl
  · split <;> rfl

theorem finalizeTWAP_of_cached (o : Oracle) (timeperiodId v : Int)
    (h : mapGet o.finalizedPrices timeperiodId = some v) :
    finalizeTWAP o timeperiodId = (some v, o) := by
  simp [finalizeTWAP, h]

theorem finalizeTWAP_caches (o : Oracle) (timeperiodId v : Int)
    (h : (finalizeTWAP o timeperiodId).1 = some v) :
    mapGet (finalizeTWAP o timeperiodId).2.finalizedPrices timeperiodId = some v := by
  unfold finalizeTWAP at h ⊢
  cases hc : mapGet o.finalizedPrices timeperiodId with
  | some w =>
    simp only [hc] at h ⊢
    exact h
  | none =>
    cases ht : calculateTWAP o timeperiodId with
    | none => simp [hc, ht] at h
    | some twap =>
      simp only [hc, ht] at h ⊢
      rw [mapGet_mapSet_self]; exact h

theorem finalizeTWAP_preserves (o : Oracle) (timeperiodId k v : Int)
    (h : mapGet o.finalizedPrices k = some v) :
    mapGet (finalizeTWAP o timeperiodId).2.finalizedPrices k = some v := by
  unfold finalizeTWAP
  cases hc : mapGet o.finalizedPrices timeperiodId with
  | some w => simpa using h
  | none =>
    cases ht : calculateTWAP o timeperiodId with
    | none => simpa using h
    | some twap =>
      have hne : k ≠ timeperiodId := by
        intro hk; subst hk; rw [hc] at h; cases h
      simp only
      rw [mapGet_mapSet_ne _ _ _ _ hne]; exact h

theorem step_preserves (o : Oracle) (op : Op) (k v : Int)
    (h : mapGet o.finalizedPrices k = some v) :
    mapGet (step o op).finalizedPrices k = some v := by
  cases op with
  | add timeperiodId price timestamp intervalSecs =>
    simp only [step, addPriceSnapshot_finalizedPrices]; exact h
  | calculate timeperiodId => exact h
  | finalize timeperiodId => exact finalizeTWAP_preserves o timeperiodId k v h
  | cleanup currentTime => exact h
  | query timeperiodId => exact h

theorem run_preserves (ops : List Op) (o : Oracle) (k v : Int)
    (h : mapGet o.finalizedPrices k = some v) :
    mapGet (run o ops).finalizedPrices k = some v := by
  induction ops generalizing o with
  | nil => exact h
  | cons op rest ih => exact ih (step o op) (step_preserves o op k v h)

/-- Claim C3, as stated, fails: on the constructor state `finalizeTWAP (10)` returns
`null` and caches nothing, and after `addPriceSnapshot (10, 100, 10, 5)` the second
`finalizeTWAP (10)` computes and returns `100`. -/
theorem finalizeTWAP_twice_differs_after_none :
    (finalizeTWAP Oracle.empty 10).1 = none
      ∧ (finalizeTWAP (addPriceSnapshot (finalizeTWAP Oracle.empty 10).2 10 100 10 5) 10).1
          = some 100
      ∧ (finalizeTWAP (addPriceSnapshot (finalizeTWAP Oracle.empty 10).2 10 100 10 5) 10).1
          ≠ (finalizeTWAP Oracle.empty 10).1 := by
  decide

theorem finalizeTWAP_none (o : Oracle) (timeperiodId : Int)
    (h : (finalizeTWAP o timeperiodId).1 = none) :
    mapGet o.finalizedPrices timeperiodId = none ∧ (finalizeTWAP o timeperiodId).2 = o := by
  unfold finalizeTWAP at h ⊢
  cases hc : mapGet o.finalizedPrices timeperiodId with
  | some w => simp [hc] at h
  | none =>
    cases ht : calculateTWAP o timeperiodId with
    | none => simp
    | some twap => simp [hc, ht] at h

theorem finalizeTWAP_of_uncached (o : Oracle) (timeperiodId : Int)
    (h : mapGet o.finalizedPrices timeperiodId = none) :
    (finalizeTWAP o timeperiodId).1 = calculateTWAP o timeperiodId := by
  unfold finalizeTWAP
  rw [h]
  cases calculateTWAP o timeperiodId <;> rfl

theorem step_keeps_uncached (o : Oracle) (op : Op) (k : Int)
    (h : mapGet o.finalizedPrices k = none) (hop : op ≠ Op.finalize k) :
    mapGet (step o op).finalizedPrices k = none := by
  cases op with
  | add timeperiodId price timestamp intervalSecs =>
    simp only [step, addPriceSnapshot_finalizedPrices]; exact h
  | calculate timeperiodId => exact h
  | finalize timeperiodId =>
    have hne : k ≠ timeperiodId := by
      intro hk; subst hk; exact hop rfl
    simp only [step]
    unfold finalizeTWAP
    cases mapGet o.finalizedPrices timeperiodId with
    | some w => exact h
    | none =>
      cases calculateTWAP o timeperiodId with
      | none => exact h
      | some twap =>
        simp only
        rw [mapGet_mapSet_ne _ _ _ _ hne]; exact h
  | cleanup currentTime => exact h
  | query timeperiodId => exact h

theorem run_keeps_uncached (ops : List Op) (o : Oracle) (k : Int)
    (h : mapGet o.finalizedPrices k = none) (hops : ∀ op ∈ ops, op ≠ Op.finalize k) :
    mapGet (run o ops).finalizedPrices k = none := by
  induction ops generalizing o with
  | nil => exact h
  | cons op rest ih =>
    exact ih (step o op)
      (step_keeps_uncached o op k h (hops op (List.mem_cons_self _ _)))
      (fun op' hop' => hops op' (List.mem_cons_of_mem _ hop'))

/-- Claim C3, amended. When the first `finalizeTWAP (id)` returns a value `v` (not
`null`), a second `finalizeTWAP (id)` after any sequence of operations in between
(`addPriceSnapshot`, `cleanupOldHistory`, further finalizations, reads) returns the same
`v` and leaves the state as it found it: it answers from the cache without recomputing.
When the first call returns `null`, it caches nothing and leaves the state unchanged,
and a second `finalizeTWAP (id)` after any operations other than `finalizeTWAP (id)`
recomputes: it returns `calculateTWAP (id)` of the state as it then is. -/
theorem finalizeTWAP_twice_same_value (o : Oracle) (timeperiodId : Int) (ops : List Op) :
    (∀ v, (finalizeTWAP o timeperiodId).1 = some v →
        finalizeTWAP (run (finalizeTWAP o timeperiodId).2 ops) timeperiodId
          = (some v, run (finalizeTWAP o timeperiodId).2 ops))
      ∧ ((finalizeTWAP o timeperiodId).1 = none →
        (finalizeTWAP o timeperiodId).2 = o
          ∧ getFinalizedPrice (finalizeTWAP o timeperiodId).2 timeperiodId = none
          ∧ ((∀ op ∈ ops, op ≠ Op.finalize timeperiodId) →
              (finalizeTWAP (run (finalizeTWAP o timeperiodId).2 ops) timeperiodId).1
                = calculateTWAP (run (finalizeTWAP o timeperiodId).2 ops) timeperiodId)) := by
  constructor
  · intro v hfirst
    exact finalizeTWAP_of_cached _ _ _
      (run_preserves ops _ _ _ (finalizeTWAP_caches o timeperiodId v hfirst))
  · intro hnone
    obtain ⟨hunc, hstate⟩ := finalizeTWAP_none o timeperiodId hnone
    refine ⟨hstate, ?_, ?_⟩
    · rw [hstate]; exact hunc
    · intro hops
      rw [hstate]
      exact finalizeTWAP_of_uncached _ _ (run_keeps_uncached ops o timeperiodId hunc hops)

theorem finalizeTWAP_twice_same_value_witness :
    ((finalizeTWAP exampleOracle 10).1 = some 180
        ∧ finalizeTWAP
            (run (finalizeTWAP exampleOracle 10).2 [Op.add 10 900 13 5, Op.cleanup 100000]) 10
          = (some 180,
              run (finalizeTWAP exampleOracle 10).2 [Op.add 10 900 13 5, Op.cleanup 100000]))
      ∧ ((finalizeTWAP Oracle.empty 10).1 = none
        ∧ (finalizeTWAP Oracle.empty 10).2 = Oracle.empty
        ∧ (finalizeTWAP (run (finalizeTWAP Oracle.empty 10).2 [Op.add 10 100 10 5]) 10).1
            = calculateTWAP (run (finalizeTWAP Oracle.empty 10).2 [Op.add 10 100 10 5]) 10) :=
  ⟨⟨by decide,
      (finalizeTWAP_twice_same_value exampleOracle 10
        [Op.add 10 900 13 5, Op.cleanup 100000]).1 180 (by decide)⟩,
    ⟨by decide,
      ((finalizeTWAP_twice_same_value Oracle.empty 10 [Op.add 10 100 10 5]).2 (by decide)).1,
      ((finalizeTWAP_twice_same_value Oracle.empty 10 [Op.add 10 100 10 5]).2
        (by decide)).2.2 (by decide)⟩⟩

/-- Claim C4: finalized prices are write-once. For every oracle state (reachable or
not) and every operation on it (`addPriceSnapshot`, `calculateTWAP`, `finalizeTWAP`,
`cleanupOldHistory`, the query handler, with any arguments), an interval id present in
`finalizedPrices` before the operation is still present afterwards with the same value. -/
theorem finalizedPrices_write_once (o : Oracle) (op : Op) (k v : Int)
    (h : mapGet o.finalizedPrices k = some v) :
    mapGet (step o op).finalizedPrices k = some v :=
  step_preserves o op k v h

theorem finalizedPrices_write_once_witness :
    mapGet (finalizeTWAP exampleOracle 10).2.finalizedPrices 10 = some 180
      ∧ mapGet (step (finalizeTWAP exampleOracle 10).2 (Op.finalize 10)).finalizedPrices 10
          = some 180 :=
  ⟨by decide,
    finalizedPrices_write_once (finalizeTWAP exampleOracle 10).2 (Op.finalize 10) 10 180
      (by decide)⟩


/-! ## Bucketing -/

theorem grid_cell_bounds (timestamp intervalSecs : Int) (hw : 0 < intervalSecs) :
    Int.fdiv timestamp intervalSecs * intervalSecs ≤ timestamp
      ∧ timestamp < Int.fdiv timestamp intervalSecs * intervalSecs + intervalSecs := by
  rw [Int.fdiv_eq_ediv timestamp (le_of_lt hw)]
  have h1 := Int.ediv_mul_le timestamp (ne_of_gt hw)
  have h2 := Int.lt_ediv_add_one_mul_self timestamp hw
  constructor
  · exact h1
  · linarith

theorem addPriceSnapshot_get_ne (o : Oracle) (timeperiodId price timestamp intervalSecs k : Int)
    (hne : k ≠ timeperiodId) :
    mapGet (addPriceSnapshot o timeperiodId price timestamp intervalSecs).priceHistory k
      = mapGet o.priceHistory k := by
  unfold addPriceSnapshot
  simp only
  split
  · split
    · simp
    · simp [mapGet_mapSet_ne _ _ _ _ hne]
  · split
    · split
      · simp [mapGet_mapSet_ne _ _ _ _ hne]
      · simp [mapGet_mapSet_ne _ _ _ _ hne]
    · split
      · simp [mapGet_mapSet_ne _ _ _ _ hne]
      · simp [mapGet_mapSet_ne _ _ _ _ hne]

theorem addPriceSnapshot_existing (o : Oracle) (timeperiodId price timestamp intervalSecs : Int)
    (history : History) (hget : mapGet o.priceHistory timeperiodId = some history) :
    addPriceSnapshot o timeperiodId price timestamp intervalSecs
      = if timestamp ≥ history.startTime ∧ timestamp < history.endTime then
          { o with priceHistory := (mapSet o.priceHistory timeperiodId
              ⟨history.snapshots ++ [⟨price, timestamp⟩], history.startTime, history.endTime⟩) }
        else o := by
  unfold addPriceSnapshot
  simp only [mapHas, hget, Option.isSome_some, if_true]

theorem addPriceSnapshot_fresh (o : Oracle) (timeperiodId price timestamp intervalSecs : Int)
    (hget : mapGet o.priceHistory timeperiodId = none) (hw : 0 < intervalSecs) :
    mapGet (addPriceSnapshot o timeperiodId price timestamp intervalSecs).priceHistory
        timeperiodId
      = some ⟨[⟨price, timestamp⟩], Int.fdiv timestamp intervalSecs * intervalSecs,
          Int.fdiv timestamp intervalSecs * intervalSecs + intervalSecs⟩ := by
  have hb := grid_cell_bounds timestamp intervalSecs hw
  unfold addPriceSnapshot
  simp only [mapHas, hget, Option.isSome_none, Bool.false_eq_true, if_false, mapGet_mapSet_self,
    ge_iff_le, hb.1, hb.2, and_self, if_true, List.nil_append]

theorem addPriceSnapshot_get_existing (o : Oracle)
    (timeperiodId price timestamp intervalSecs : Int)
    (history : History) (hget : mapGet o.priceHistory timeperiodId = some history) :
    mapGet (addPriceSnapshot o timeperiodId price timestamp intervalSecs).priceHistory
        timeperiodId
      = some (if timestamp ≥ history.startTime ∧ timestamp < history.endTime then
          ⟨history.snapshots ++ [⟨price, timestamp⟩], history.startTime, history.endTime⟩
        else history) := by
  rw [addPriceSnapshot_existing o _ _ _ _ history hget]
  split
  · simp [mapGet_mapSet_self]
  · exact hget

theorem finalizeTWAP_priceHistory (o : Oracle) (timeperiodId : Int) :
    (finalizeTWAP o timeperiodId).2.priceHistory = o.priceHistory := by
  unfold finalizeTWAP
  split
  · rfl
  · split <;> rfl

theorem cleanupLoop_get_some (oneHourAgo : Int) (es m : List (Int × History)) (k : Int)
    (history : History) (h : mapGet (cleanupLoop oneHourAgo es m) k = some history) :
    mapGet m k = some history := by
  induction es generalizing m with
  | nil => exact h
  | cons e rest ih =>
    obtain ⟨k0, h0⟩ := e
    unfold cleanupLoop at h
    split at h
    · have h1 := ih _ h
      rw [mapGet_mapDelete] at h1
      split at h1
      · cases h1
      · exact h1
    · exact ih _ h

theorem reach_invariant (o : Oracle) (creatingWidth : Int → Int)
    (hreach : Reach o creatingWidth) (k : Int) (history : History)
    (hget : mapGet o.priceHistory k = some history) :
    0 < creatingWidth k ∧ history.endTime = history.startTime + creatingWidth k
      ∧ ∀ s ∈ history.snapshots,
          history.startTime ≤ s.timestamp ∧ s.timestamp < history.endTime := by
  induction hreach generalizing k history with
  | init => simp [Oracle.empty, mapGet] at hget
  | @add o g timeperiodId price timestamp intervalSecs _ hw ih =>
    by_cases hk : k = timeperiodId
    · subst hk
      cases hold : mapGet o.priceHistory k with
      | none =>
        rw [addPriceSnapshot_fresh o k price timestamp intervalSecs hold hw] at hget
        cases hget
        have hb := grid_cell_bounds timestamp intervalSecs hw
        simp [mapHas, hold, hw, hb.1, hb.2]
      | some h0 =>
        rw [addPriceSnapshot_get_existing o k price timestamp intervalSecs h0 hold] at hget
        have hinv := ih k h0 hold
        simp only [mapHas, hold, Option.isSome_some, if_true]
        split at hget
        · rename_i hin
          cases hget
          refine ⟨hinv.1, hinv.2.1, ?_⟩
          intro s hs
          rcases List.mem_append.mp hs with hs | hs
          · exact hinv.2.2 s hs
          · simp at hs
            subst hs
            exact ⟨hin.1, hin.2⟩
        · cases hget
          exact hinv
    · rw [addPriceSnapshot_get_ne _ _ _ _ _ _ hk] at hget
      have hinv := ih k history hget
      split
      · exact hinv
      · rw [Function.update_noteq hk]
        exact hinv
  | @finalize o g timeperiodId _ ih =>
    rw [finalizeTWAP_priceHistory] at hget
    exact ih k history hget
  | @cleanup o g currentTime _ ih =>
    exact ih k history (cleanupLoop_get_some _ _ _ _ _ hget)

/-- Claim C5: in every state reachable from the constructor state by `addPriceSnapshot`
calls with positive interval width, interleaved with `finalizeTWAP` and
`cleanupOldHistory`, every bucket has `endTime = startTime + width` for the width of the
call that created it, and every snapshot in it satisfies
`startTime ≤ timestamp < endTime`. -/
theorem bucket_bounds_invariant (o : Oracle) (creatingWidth : Int → Int)
    (hreach : Reach o creatingWidth) (timeperiodId : Int) (history : History)
    (hget : mapGet o.priceHistory timeperiodId = some history) :
    history.endTime = history.startTime + creatingWidth timeperiodId
      ∧ ∀ s ∈ history.snapshots,
          history.startTime ≤ s.timestamp ∧ s.timestamp < history.endTime :=
  (reach_invariant o creatingWidth hreach timeperiodId history hget).2

theorem exampleOracle_reach : Reach exampleOracle (Function.update (fun _ => 0) 10 5) :=
  Reach.add 10 300 14 5
    (Reach.add 10 200 12 5 (Reach.add 10 100 10 5 Reach.init (by decide)) (by decide))
    (by decide)

theorem bucket_bounds_invariant_witness :
    (15 : Int) = 10 + Function.update (fun _ => (0 : Int)) 10 5 10
      ∧ ∀ s ∈ [(⟨100, 10⟩ : Snapshot), ⟨200, 12⟩, ⟨300, 14⟩],
          (10 : Int) ≤ s.timestamp ∧ s.timestamp < 15 :=
  bucket_bounds_invariant exampleOracle (Function.update (fun _ => 0) 10 5)
    exampleOracle_reach 10 ⟨[⟨100, 10⟩, ⟨200, 12⟩, ⟨300, 14⟩], 10, 15⟩ (by decide)


/-- Claim C6, as stated, fails: on the constructor state
`addPriceSnapshot (10, 100, 22, 5)` creates the bucket under key `10` with the bounds
`[20, 25)` of the grid cell of the timestamp and stores the tick, although `22` is outside
`[10, 15)`; a further `addPriceSnapshot (10, 200, 23, 5)` is appended to that existing
bucket, although `23` is outside `[10, 15)` too. -/
theorem addPriceSnapshot_stores_tick_outside_id_interval :
    ¬ ((10 : Int) ≤ 22 ∧ (22 : Int) < 10 + 5)
      ∧ getPriceHistory (addPriceSnapshot Oracle.empty 10 100 22 5) 10
          = some ⟨[⟨100, 22⟩], 20, 25⟩
      ∧ ¬ ((10 : Int) ≤ 23 ∧ (23 : Int) < 10 + 5)
      ∧ getPriceHistory
            (addPriceSnapshot (addPriceSnapshot Oracle.empty 10 100 22 5) 10 200 23 5) 10
          = some ⟨[⟨100, 22⟩, ⟨200, 23⟩], 20, 25⟩ := by
  decide

/-- Claim C6, amended: when a bucket already exists under `timeperiodId`, a tick whose
timestamp is outside the stored bounds `[startTime, endTime)` of that bucket is dropped
silently: `addPriceSnapshot` leaves the whole state, hence the bucket, unchanged. -/
theorem addPriceSnapshot_drops_outside_stored_bounds (o : Oracle)
    (timeperiodId price timestamp intervalSecs : Int) (history : History)
    (hget : mapGet o.priceHistory timeperiodId = some history)
    (hout : ¬ (history.startTime ≤ timestamp ∧ timestamp < history.endTime)) :
    addPriceSnapshot o timeperiodId price timestamp intervalSecs = o := by
  rw [addPriceSnapshot_existing o _ _ _ _ history hget]
  simp only [ge_iff_le, hout, if_false]

theorem addPriceSnapshot_drops_outside_stored_bounds_witness :
    addPriceSnapshot exampleOracle 10 400 15 5 = exampleOracle :=
  addPriceSnapshot_drops_outside_stored_bounds exampleOracle 10 400 15 5
    ⟨[⟨100, 10⟩, ⟨200, 12⟩, ⟨300, 14⟩], 10, 15⟩ (by decide) (by decide)

/-! ## History retention -/

theorem cleanupLoop_eq_filter (oneHourAgo : Int) (es m : List (Int × History)) :
    cleanupLoop oneHourAgo es m
      = m.filter (fun e =>
          !(es.any (fun e' => decide (e'.1 = e.1) && decide (e'.2.endTime < oneHourAgo)))) := by
  induction es generalizing m with
  | nil => simp [cleanupLoop]
  | cons e0 rest ih =>
    obtain ⟨k0, h0⟩ := e0
    unfold cleanupLoop
    by_cases hold : h0.endTime < oneHourAgo
    · simp only [hold, if_true]
      rw [ih, mapDelete, List.filter_filter]
      apply List.filter_congr
      intro e _
      by_cases hk : k0 = e.1
      · simp [hk, hold]
      · simp [hk, hold, Ne.symm hk, eq_comm]
    · simp only [hold, if_false]
      rw [ih]
      apply List.filter_congr
      intro e _
      simp [hold]

theorem entry_unique_of_nodup {V : Type} (m : List (Int × V)) (hnd : (mapKeys m).Nodup)
    (e e' : Int × V) (he : e ∈ m) (he' : e' ∈ m) (hk : e'.1 = e.1) : e' = e := by
  have h1 := mapGet_of_mem m e.1 e.2 hnd he
  have h2 := mapGet_of_mem m e'.1 e'.2 hnd he'
  rw [hk, h1] at h2
  exact Prod.ext hk (Option.some.inj h2).symm

theorem cleanup_filter_of_nodup (oneHourAgo : Int) (m : List (Int × History))
    (hnd : (mapKeys m).Nodup) :
    cleanupLoop oneHourAgo m m = m.filter (fun e => decide (oneHourAgo ≤ e.2.endTime)) := by
  rw [cleanupLoop_eq_filter]
  apply List.filter_congr
  intro e he
  by_cases hold : e.2.endTime < oneHourAgo
  · have hany : m.any (fun e' => decide (e'.1 = e.1) && decide (e'.2.endTime < oneHourAgo))
        = true := by
      rw [List.any_eq_true]
      exact ⟨e, he, by simp [hold]⟩
    rw [hany]
    simp [hold]
  · have hany : m.any (fun e' => decide (e'.1 = e.1) && decide (e'.2.endTime < oneHourAgo))
        = false := by
      rw [List.any_eq_false]
      intro e' he' hc
      simp only [Bool.and_eq_true, decide_eq_true_eq] at hc
      have := entry_unique_of_nodup m hnd e e' he he' hc.1
      rw [this] at hc
      exact hold hc.2
    rw [hany]
    simp [not_lt.mp hold]

theorem mapGet_filter_of_nodup {V : Type} (m : List (Int × V)) (p : Int × V → Bool)
    (hnd : (mapKeys m).Nodup) (k : Int) :
    mapGet (m.filter p) k = (mapGet m k).filter (fun v => p (k, v)) := by
  induction m with
  | nil => simp [mapGet]
  | cons e rest ih =>
    obtain ⟨k0, v0⟩ := e
    simp only [mapKeys, List.map_cons, List.nodup_cons] at hnd
    have ih' := ih hnd.2
    by_cases hk : k0 = k
    · subst hk
      have hnone : mapGet (rest.filter p) k0 = none := by
        cases hg : mapGet (rest.filter p) k0 with
        | none => rfl
        | some v =>
          have hmem := List.mem_of_mem_filter (mem_of_mapGet _ _ _ hg)
          exact absurd (List.mem_map.mpr ⟨(k0, v), hmem, rfl⟩) hnd.1
      by_cases hp : p (k0, v0) = true
      · simp [List.filter_cons, hp, mapGet, Option.filter]
      · simp [List.filter_cons, hp, mapGet, Option.filter, hnone]
    · by_cases hp : p (k0, v0) = true
      · simp [List.filter_cons, hp, mapGet, hk, ih']
      · simp [List.filter_cons, hp, mapGet, hk, ih']

/-- Claim C7: after `cleanupOldHistory` at current time `now` (retention horizon
3600 s) the bucket map holds exactly the buckets that had `endTime ≥ now - 3600`, each
with unchanged contents and in the same order; every bucket with `endTime < now - 3600`
is gone, whatever `finalizedPrices` holds, and `finalizedPrices` is untouched. -/
theorem cleanupOldHistory_evicts_exactly_old (o : Oracle) (now : Int)
    (hnd : (mapKeys o.priceHistory).Nodup) :
    (cleanupOldHistory o now).priceHistory
        = o.priceHistory.filter (fun e => decide (now - 3600 ≤ e.2.endTime))
      ∧ (∀ timeperiodId history, getPriceHistory o timeperiodId = some history →
          now - 3600 ≤ history.endTime →
          getPriceHistory (cleanupOldHistory o now) timeperiodId = some history)
      ∧ (∀ timeperiodId history, getPriceHistory o timeperiodId = some history →
          history.endTime < now - 3600 →
          getPriceHistory (cleanupOldHistory o now) timeperiodId = none)
      ∧ (∀ timeperiodId, getPriceHistory o timeperiodId = none →
          getPriceHistory (cleanupOldHistory o now) timeperiodId = none)
      ∧ (cleanupOldHistory o now).finalizedPrices = o.finalizedPrices := by
  have hfilter : (cleanupOldHistory o now).priceHistory
      = o.priceHistory.filter (fun e => decide (now - 3600 ≤ e.2.endTime)) := by
    simp only [cleanupOldHistory]
    exact cleanup_filter_of_nodup (now - 3600) o.priceHistory hnd
  refine ⟨hfilter, ?_, ?_, ?_, rfl⟩
  · intro timeperiodId history hget hkeep
    unfold getPriceHistory at hget ⊢
    rw [hfilter, mapGet_filter_of_nodup _ _ hnd, hget]
    simp [Option.filter, hkeep]
  · intro timeperiodId history hget hold
    unfold getPriceHistory at hget ⊢
    rw [hfilter, mapGet_filter_of_nodup _ _ hnd, hget]
    have hnot : ¬ now - 3600 ≤ history.endTime := not_le.mpr hold
    simp only [Option.filter, hnot, decide_False, Bool.false_eq_true, if_false]
  · intro timeperiodId hget
    unfold getPriceHistory at hget ⊢
    rw [hfilter, mapGet_filter_of_nodup _ _ hnd, hget]
    simp [Option.filter]

theorem cleanupOldHistory_evicts_exactly_old_witness :
    (cleanupOldHistory
        ⟨[(10, ⟨[⟨100, 10⟩], 10, 15⟩), (7000, ⟨[⟨200, 7001⟩], 7000, 7005⟩)], [(10, 100)]⟩
        10000).priceHistory
        = [(7000, ⟨[⟨200, 7001⟩], 7000, 7005⟩)] :=
  (cleanupOldHistory_evicts_exactly_old
    ⟨[(10, ⟨[⟨100, 10⟩], 10, 15⟩), (7000, ⟨[⟨200, 7001⟩], 7000, 7005⟩)], [(10, 100)]⟩
    10000 (by decide)).1


theorem mapKeys_mapSet_of_get {V : Type} (m : List (Int × V)) (k : Int) (v w : V)
    (hget : mapGet m k = some w) : mapKeys (mapSet m k v) = mapKeys m := by
  induction m with
  | nil => simp [mapGet] at hget
  | cons e rest ih =>
    obtain ⟨k0, v0⟩ := e
    by_cases hk : k0 = k
    · simp [mapSet, mapKeys, hk]
    · simp only [mapGet, hk, if_false] at hget
      have := ih hget
      simp only [mapKeys] at this
      simp [mapSet, mapKeys, hk, this]

theorem mapKeys_mapSet_of_none {V : Type} (m : List (Int × V)) (k : Int) (v : V)
    (hget : mapGet m k = none) : mapKeys (mapSet m k v) = mapKeys m ++ [k] := by
  induction m with
  | nil => simp [mapSet, mapKeys]
  | cons e rest ih =>
    obtain ⟨k0, v0⟩ := e
    by_cases hk : k0 = k
    · simp [mapGet, hk] at hget
    · simp only [mapGet, hk, if_false] at hget
      have := ih hget
      simp only [mapKeys] at this
      simp [mapSet, mapKeys, hk, this]

theorem not_mem_keys_of_none {V : Type} (m : List (Int × V)) (k : Int)
    (hget : mapGet m k = none) : k ∉ mapKeys m := by
  induction m with
  | nil => simp [mapKeys]
  | cons e rest ih =>
    obtain ⟨k0, v0⟩ := e
    by_cases hk : k0 = k
    · simp [mapGet, hk] at hget
    · simp only [mapGet, hk, if_false] at hget
      have := ih hget
      simp only [mapKeys] at this
      simp [mapKeys, Ne.symm hk, this]

theorem mapSet_nodup {V : Type} (m : List (Int × V)) (k : Int) (v : V)
    (hnd : (mapKeys m).Nodup) : (mapKeys (mapSet m k v)).Nodup := by
  cases hget : mapGet m k with
  | some w => rw [mapKeys_mapSet_of_get m k v w hget]; exact hnd
  | none =>
    rw [mapKeys_mapSet_of_none m k v hget]
    exact List.Nodup.append hnd (List.nodup_singleton k)
      (by
        intro a ha hb
        simp only [List.mem_singleton] at hb
        subst hb
        exact not_mem_keys_of_none m a hget ha)

theorem reach_nodup (o : Oracle) (creatingWidth : Int → Int) (hreach : Reach o creatingWidth) :
    (mapKeys o.priceHistory).Nodup := by
  induction hreach with
  | init => simp [Oracle.empty, mapKeys]
  | @add o g timeperiodId price timestamp intervalSecs _ hw ih =>
    cases hold : mapGet o.priceHistory timeperiodId with
    | some h0 =>
      rw [addPriceSnapshot_existing o _ _ _ _ h0 hold]
      split
      · exact mapSet_nodup _ _ _ ih
      · exact ih
    | none =>
      have hb := grid_cell_bounds timestamp intervalSecs hw
      unfold addPriceSnapshot
      simp only [mapHas, hold, Option.isSome_none, Bool.false_eq_true, if_false,
        mapGet_mapSet_self, ge_iff_le, hb.1, hb.2, and_self, if_true]
      exact mapSet_nodup _ _ _ (mapSet_nodup _ _ _ ih)
  | @finalize o g timeperiodId _ ih =>
    rw [finalizeTWAP_priceHistory]; exact ih
  | @cleanup o g currentTime _ ih =>
    simp only [cleanupOldHistory]
    rw [cleanupLoop_eq_filter]
    exact List.Nodup.sublist (List.Sublist.map _ (List.filter_sublist _)) ih


/-! ## Degenerate buckets -/

theorem pairLoop_same_timestamp (l : List Snapshot) (t : Int)
    (hsame : ∀ s ∈ l, s.timestamp = t) : pairLoop l (0, 0) = (0, 0) := by
  induction l with
  | nil => simp [pairLoop]
  | cons c rest ih =>
    cases rest with
    | nil => simp [pairLoop]
    | cons n r =>
      have hc := hsame c (List.mem_cons_self _ _)
      have hn := hsame n (List.mem_cons_of_mem _ (List.mem_cons_self _ _))
      simp only [pairLoop, hc, hn, sub_self, mul_zero, add_zero, toDouble_zero]
      exact ih (fun s hs => hsame s (List.mem_cons_of_mem _ hs))

theorem absPriceSum_nonneg (l : List Snapshot) :
    0 ≤ (l.map (fun s => |s.price|)).sum := by
  induction l with
  | nil => simp
  | cons c rest ih =>
    simp only [List.map_cons, List.sum_cons]
    exact add_nonneg (abs_nonneg _) ih

theorem abs_priceSum_le (l : List Snapshot) :
    |(l.map Snapshot.price).sum| ≤ (l.map (fun s => |s.price|)).sum := by
  induction l with
  | nil => simp
  | cons c rest ih =>
    simp only [List.map_cons, List.sum_cons]
    exact le_trans (abs_add _ _) (add_le_add (le_refl _) ih)

theorem priceSum_acc (l : List Snapshot) (a : Int)
    (h : |a| + (l.map (fun s => |s.price|)).sum < 2 ^ 53) :
    l.foldl (fun acc s => toDouble (acc + s.price)) a = a + (l.map Snapshot.price).sum := by
  induction l generalizing a with
  | nil => simp
  | cons c rest ih =>
    simp only [List.map_cons, List.sum_cons] at h
    have hrest := absPriceSum_nonneg rest
    have hsum := abs_add a c.price
    simp only [List.foldl_cons, List.map_cons, List.sum_cons]
    rw [toDouble_of_lt (a + c.price) (by linarith), ih (a + c.price) (by linarith)]
    ring

theorem priceSum_eq_sum (l : List Snapshot)
    (h : (l.map (fun s => |s.price|)).sum < 2 ^ 53) :
    priceSum l = (l.map Snapshot.price).sum := by
  unfold priceSum
  rw [priceSum_acc l 0 (by rw [abs_zero, zero_add]; exact h), zero_add]

theorem computeTWAP_of_nonpos (history : History) (hlen : 2 ≤ history.snapshots.length)
    (hnonpos : ¬ 0 < totalWeight history) :
    computeTWAP history
      = some (mathFloorDiv (priceSum history.snapshots) (history.snapshots.length : Int)) := by
  unfold computeTWAP
  split
  · rename_i h; rw [h] at hlen; simp at hlen
  · rename_i h; rw [h] at hlen; simp at hlen
  · simp [hnonpos]

/-- Claim C8, as stated, fails: the bucket `[10, 15)` built by
`addPriceSnapshot (10, 100, 12, 5)` and `addPriceSnapshot (10, 200, 12, 5)` has two
snapshots sharing timestamp `12`; its total weight is the tail weight `3`, not zero, and
`calculateTWAP` returns `200`, the last price, not the floored mean `150`. -/
theorem calculateTWAP_identical_timestamps_not_mean :
    getPriceHistory (addPriceSnapshot (addPriceSnapshot Oracle.empty 10 100 12 5) 10 200 12 5) 10
        = some ⟨[⟨100, 12⟩, ⟨200, 12⟩], 10, 15⟩
      ∧ totalWeight ⟨[⟨100, 12⟩, ⟨200, 12⟩], 10, 15⟩ = 3
      ∧ calculateTWAP
            (addPriceSnapshot (addPriceSnapshot Oracle.empty 10 100 12 5) 10 200 12 5) 10
          = some 200
      ∧ Int.fdiv (100 + 200) 2 = 150 := by
  decide

/-- Claim C8, amended: for a bucket with two or more snapshots that all share one
timestamp `t`. When `t` is not before `endTime` (which no bucket filled by
`addPriceSnapshot` satisfies) the total weight is zero, and `calculateTWAP` returns the
floored unweighted mean of the snapshot prices provided the absolute prices add up to
less than `2^53`. When `t < endTime` the total weight is the tail weight `endTime - t`,
and `calculateTWAP` returns the price of the last snapshot provided
`|last.price * (endTime - t)| < 2^53`. The two provisos keep the double arithmetic
exact. -/
theorem calculateTWAP_identical_timestamps (o : Oracle) (timeperiodId t : Int)
    (history : History)
    (hget : mapGet o.priceHistory timeperiodId = some history)
    (hlen : 2 ≤ history.snapshots.length)
    (hsame : ∀ s ∈ history.snapshots, s.timestamp = t) :
    (history.endTime ≤ t →
        totalWeight history = 0
          ∧ ((history.snapshots.map (fun s => |s.price|)).sum < 2 ^ 53 →
              calculateTWAP o timeperiodId
                = some ⌊(((history.snapshots.map Snapshot.price).sum : Int) : ℚ)
                    / ((history.snapshots.length : Int) : ℚ)⌋))
      ∧ (t < history.endTime →
        totalWeight history = history.endTime - t
          ∧ (|(snapAt history.snapshots (history.snapshots.length - 1)).price
                * (history.endTime - t)| < 2 ^ 53 →
              calculateTWAP o timeperiodId
                = some (snapAt history.snapshots (history.snapshots.length - 1)).price)) := by
  have hne : history.snapshots ≠ [] := by
    intro h; rw [h] at hlen; simp at hlen
  have hlast_mem := snapAt_mem history.snapshots (history.snapshots.length - 1)
    (Nat.sub_lt (List.length_pos.mpr hne) Nat.one_pos)
  have hlast := hsame _ hlast_mem
  have hw : weights history
      = tailStep history.snapshots history.endTime (0, 0) := by
    unfold weights
    rw [pairLoop_same_timestamp _ t hsame]
  unfold calculateTWAP
  rw [hget]
  simp only
  constructor
  · intro hge
    have hnlt : ¬ (snapAt history.snapshots (history.snapshots.length - 1)).timestamp
        < history.endTime := by rw [hlast]; omega
    have htw : totalWeight history = 0 := by
      unfold totalWeight
      rw [hw]
      unfold tailStep
      rw [getLast?_eq_snapAt _ hne]
      simp only [hnlt, if_false]
    refine ⟨htw, ?_⟩
    intro hmag
    rw [computeTWAP_of_nonpos history hlen (by rw [htw]; decide),
      priceSum_eq_sum _ hmag]
    have hpos : (0 : Int) < (history.snapshots.length : Int) := by omega
    rw [mathFloorDiv_eq_fdiv _ _ hpos
      (lt_of_le_of_lt (abs_priceSum_le history.snapshots) hmag), floor_rat_div _ _ hpos]
  · intro hlt
    have hws : weights history
        = (toDouble (0 + toDouble
              ((snapAt history.snapshots (history.snapshots.length - 1)).price
                * (history.endTime - t))), 0 + (history.endTime - t)) := by
      rw [hw]
      unfold tailStep
      rw [getLast?_eq_snapAt _ hne]
      simp only [hlast, hlt, if_true]
    have htw : totalWeight history = history.endTime - t := by
      simp [totalWeight, hws]
    have hpos : 0 < totalWeight history := by rw [htw]; omega
    refine ⟨htw, ?_⟩
    intro hmag
    rw [computeTWAP_of_pos history hlen hpos]
    have hsum : weightedSum history
        = (snapAt history.snapshots (history.snapshots.length - 1)).price
            * totalWeight history := by
      unfold weightedSum
      rw [hws, htw]
      simp only
      rw [toDouble_of_lt _ hmag, zero_add, toDouble_of_lt _ hmag]
    have hmag' : |weightedSum history| < 2 ^ 53 := by rw [hsum, htw]; exact hmag
    rw [mathFloorDiv_eq_fdiv _ _ hpos hmag', hsum,
      Int.fdiv_eq_ediv _ (le_of_lt hpos), Int.mul_ediv_cancel _ (ne_of_gt hpos)]

theorem calculateTWAP_identical_timestamps_witness :
    (totalWeight ⟨[⟨100, 20⟩, ⟨201, 20⟩], 10, 15⟩ = 0
        ∧ calculateTWAP ⟨[(10, ⟨[⟨100, 20⟩, ⟨201, 20⟩], 10, 15⟩)], []⟩ 10
            = some ⌊((([(⟨100, 20⟩ : Snapshot), ⟨201, 20⟩].map Snapshot.price).sum : Int) : ℚ)
                / ((([(⟨100, 20⟩ : Snapshot), ⟨201, 20⟩].length : Nat) : Int) : ℚ)⌋)
      ∧ (totalWeight ⟨[⟨100, 12⟩, ⟨201, 12⟩], 10, 15⟩ = 15 - 12
        ∧ calculateTWAP ⟨[(10, ⟨[⟨100, 12⟩, ⟨201, 12⟩], 10, 15⟩)], []⟩ 10
            = some (snapAt [⟨100, 12⟩, ⟨201, 12⟩] (2 - 1)).price) :=
  ⟨⟨((calculateTWAP_identical_timestamps ⟨[(10, ⟨[⟨100, 20⟩, ⟨201, 20⟩], 10, 15⟩)], []⟩ 10 20
        ⟨[⟨100, 20⟩, ⟨201, 20⟩], 10, 15⟩ (by decide) (by decide) (by decide)).1
        (by decide)).1,
      ((calculateTWAP_identical_timestamps ⟨[(10, ⟨[⟨100, 20⟩, ⟨201, 20⟩], 10, 15⟩)], []⟩ 10 20
        ⟨[⟨100, 20⟩, ⟨201, 20⟩], 10, 15⟩ (by decide) (by decide) (by decide)).1
        (by decide)).2 (by decide)⟩,
    ⟨((calculateTWAP_identical_timestamps ⟨[(10, ⟨[⟨100, 12⟩, ⟨201, 12⟩], 10, 15⟩)], []⟩ 10 12
        ⟨[⟨100, 12⟩, ⟨201, 12⟩], 10, 15⟩ (by decide) (by decide) (by decide)).2
        (by decide)).1,
      ((calculateTWAP_identical_timestamps ⟨[(10, ⟨[⟨100, 12⟩, ⟨201, 12⟩], 10, 15⟩)], []⟩ 10 12
        ⟨[⟨100, 12⟩, ⟨201, 12⟩], 10, 15⟩ (by decide) (by decide) (by decide)).2
        (by decide)).2 (by decide)⟩⟩

theorem calculateTWAP_identical_timestamps_large_price :
    calculateTWAP
        (addPriceSnapshot (addPriceSnapshot Oracle.empty 10 1 10 5) 10 9007199254740991 10 5) 10
      = some 9007199254740990 := by
  decide

/-! ## Query handler -/

theorem getTwap_cases (o : Oracle) (timeperiodId : Int) :
    (∀ v, getFinalizedPrice o timeperiodId = some v → v ≠ 0 →
        getTwap o timeperiodId = some v)
      ∧ (getFinalizedPrice o timeperiodId = some 0 →
        getTwap o timeperiodId = calculateTWAP o timeperiodId)
      ∧ (getFinalizedPrice o timeperiodId = none →
        getTwap o timeperiodId = calculateTWAP o timeperiodId) := by
  refine ⟨?_, ?_, ?_⟩
  · intro v hv hne
    simp [getTwap, hv, truthy, hne]
  · intro hv
    simp [getTwap, hv, truthy]
  · intro hv
    simp [getTwap, hv, truthy]

/-- Claim C9 fails on the code for a cached value `0`: after two ticks of price `0` in
`[10, 15)`, `finalizeTWAP (10)` caches `0`; once `cleanupOldHistory` has evicted the
bucket the handler answers not-found although `0` is cached, because `0` is falsy for
the `||` of the handler. With the bucket still present and extended by a tick of price
`500` the handler answers the live value `300` instead of the cached `0`. -/
theorem getTwap_ignores_cached_zero :
    getFinalizedPrice
        (cleanupOldHistory
          (finalizeTWAP (addPriceSnapshot (addPriceSnapshot Oracle.empty 10 0 10 5) 10 0 12 5)
            10).2 10000) 10 = some 0
      ∧ getTwap
        (cleanupOldHistory
          (finalizeTWAP (addPriceSnapshot (addPriceSnapshot Oracle.empty 10 0 10 5) 10 0 12 5)
            10).2 10000) 10 = none
      ∧ getFinalizedPrice
        (addPriceSnapshot (finalizeTWAP (addPriceSnapshot Oracle.empty 10 0 10 5) 10).2
          10 500 12 5) 10 = some 0
      ∧ getTwap
        (addPriceSnapshot (finalizeTWAP (addPriceSnapshot Oracle.empty 10 0 10 5) 10).2
          10 500 12 5) 10 = some 300 := by
  decide

/-! ## Total weight in reachable states -/

/-- Claim C10: in every state reachable through `addPriceSnapshot` with positive width
(interleaved with `finalizeTWAP` and `cleanupOldHistory`), for every bucket with two or
more snapshots in any arrival order, the total weight computed by `calculateTWAP` equals
`endTime - snapshots[0].timestamp` and is strictly positive; hence `calculateTWAP` takes
the weighted branch, returning `Math.floor (weightedSum / totalWeight)` with that
positive divisor, never the simple-average fallback. -/
theorem totalWeight_pos_of_reach (o : Oracle) (creatingWidth : Int → Int)
    (hreach : Reach o creatingWidth) (timeperiodId : Int) (history : History)
    (hget : mapGet o.priceHistory timeperiodId = some history)
    (hlen : 2 ≤ history.snapshots.length) :
    totalWeight history = history.endTime - (snapAt history.snapshots 0).timestamp
      ∧ 0 < totalWeight history
      ∧ calculateTWAP o timeperiodId
          = some (mathFloorDiv (weightedSum history) (totalWeight history)) := by
  have hne : history.snapshots ≠ [] := by
    intro h; rw [h] at hlen; simp at hlen
  have hpos_len : 0 < history.snapshots.length := List.length_pos.mpr hne
  have hinv := (reach_invariant o creatingWidth hreach timeperiodId history hget).2.2
  have hlast := (hinv _ (snapAt_mem history.snapshots (history.snapshots.length - 1)
    (Nat.sub_lt hpos_len Nat.one_pos))).2
  have hfirst := (hinv _ (snapAt_mem history.snapshots 0 hpos_len)).2
  have htw := totalWeight_eq_of_last_lt history hne hlast
  have hpos : 0 < totalWeight history := by rw [htw]; omega
  refine ⟨htw, hpos, ?_⟩
  unfold calculateTWAP
  rw [hget]
  exact computeTWAP_of_pos history hlen hpos

theorem totalWeight_pos_of_reach_witness :
    totalWeight ⟨[⟨100, 14⟩, ⟨200, 10⟩], 10, 15⟩
        = 15 - (snapAt [⟨100, 14⟩, ⟨200, 10⟩] 0).timestamp
      ∧ 0 < totalWeight ⟨[⟨100, 14⟩, ⟨200, 10⟩], 10, 15⟩
      ∧ calculateTWAP (addPriceSnapshot (addPriceSnapshot Oracle.empty 10 100 14 5) 10 200 10 5)
            10
          = some (mathFloorDiv (weightedSum ⟨[⟨100, 14⟩, ⟨200, 10⟩], 10, 15⟩)
              (totalWeight ⟨[⟨100, 14⟩, ⟨200, 10⟩], 10, 15⟩)) :=
  totalWeight_pos_of_reach
    (addPriceSnapshot (addPriceSnapshot Oracle.empty 10 100 14 5) 10 200 10 5)
    (Function.update (fun _ => 0) 10 5)
    (Reach.add 10 200 10 5 (Reach.add 10 100 14 5 Reach.init (by decide)) (by decide))
    10 ⟨[⟨100, 14⟩, ⟨200, 10⟩], 10, 15⟩ (by decide) (by decide)

theorem broadcastPrice_records_in_own_cell (o : Oracle)
    (priceRaw timestamp gridIntervalSeconds : Int) (hw : 0 < gridIntervalSeconds)
    (hnew : mapGet o.priceHistory (Int.fdiv timestamp gridIntervalSeconds * gridIntervalSeconds)
      = none) :
    getPriceHistory (broadcastPrice o (some priceRaw) timestamp gridIntervalSeconds)
        (Int.fdiv timestamp gridIntervalSeconds * gridIntervalSeconds)
      = some ⟨[⟨priceRaw, timestamp⟩],
          Int.fdiv timestamp gridIntervalSeconds * gridIntervalSeconds,
          Int.fdiv timestamp gridIntervalSeconds * gridIntervalSeconds + gridIntervalSeconds⟩ :=
  addPriceSnapshot_fresh o _ priceRaw timestamp gridIntervalSeconds hnew hw


/-! ## Out-of-order arrival -/

/-- Claim C11: out-of-order arrival can push the TWAP outside the observed price range.
The state built by `addPriceSnapshot (10, 100, 14, 5)` then
`addPriceSnapshot (10, 200, 10, 5)` is reachable, its bucket `[10, 15)` holds the
non-negative prices `100` and `200` in arrival order, the weight of its only pair is
`10 - 14 = -4`, the total weight is `1`, and `calculateTWAP` returns `600`, strictly
above the maximum snapshot price `200`. -/
theorem calculateTWAP_out_of_order_exceeds_max :
    ∃ (o : Oracle) (creatingWidth : Int → Int) (timeperiodId : Int) (history : History) (v : Int),
      Reach o creatingWidth
        ∧ o = addPriceSnapshot (addPriceSnapshot Oracle.empty 10 100 14 5) 10 200 10 5
        ∧ timeperiodId = 10
        ∧ getPriceHistory o timeperiodId = some history
        ∧ history = ⟨[⟨100, 14⟩, ⟨200, 10⟩], 10, 15⟩
        ∧ (∀ s ∈ history.snapshots, 0 ≤ s.price)
        ∧ pairWeight history.snapshots 0 < 0
        ∧ weightedSum history = 600
        ∧ totalWeight history = 1
        ∧ maxPrice history.snapshots = 200
        ∧ calculateTWAP o timeperiodId = some v
        ∧ v = 600
        ∧ maxPrice history.snapshots < v :=
  ⟨addPriceSnapshot (addPriceSnapshot Oracle.empty 10 100 14 5) 10 200 10 5,
    Function.update (fun _ => 0) 10 5, 10, ⟨[⟨100, 14⟩, ⟨200, 10⟩], 10, 15⟩, 600,
    Reach.add 10 200 10 5 (Reach.add 10 100 14 5 Reach.init (by decide)) (by decide),
    rfl, rfl, by decide, rfl, by decide, by decide, by decide, by decide, by decide,
    by decide, rfl, by decide⟩


end TWAPOracle
